import Mathlib

/-!
Shallow embedding of the cryptographic core of the go-kzg-4844 repository
(domain construction and Lagrange evaluation in `internal/kzg/domain.go`,
multi-scalar multiplication in `internal/multiexp/multiexp.go`, the canonical
serialisation codec in `serialisation.go`, and the trusted-setup
well-formedness check), together with proofs and refutations of the frozen
specification claims about this code.

Conventions of the embedding:
- `fr.Element` (the BLS12-381 scalar field) is `ZMod r` with `r` the field
  order; gnark's `Exp` (square-and-multiply over the exponent bits) is
  `frExp`, its `Inverse` (the modular inverse, with `Inverse 0 = 0`) is
  `frInv`, and `fr.BatchInvert` (elementwise inversion, zeroes kept) is
  `batchInvert`.
- Go machine integers are `ℕ` with explicit range bounds where they matter.
- Go functions returning `error` become `Except Err _`; a Go runtime panic
  (slice index out of range, or an explicit `panic` call) is modelled as
  `Option.none` or a dedicated error constructor, as noted at each function.
- Repository helpers that are not part of the given sources
  (`utils.ReduceCanonical`, `utils.ReverseArray`, `utils.IsPowerOfTwo`,
  `Domain.IfftG1`) are modelled from the specification, as flagged in their
  doc comments; external collaborators (gnark curve arithmetic, `encoding/hex`)
  are modelled from their documented contracts or abstracted as parameters.
-/

set_option maxRecDepth 40000

namespace GoKZG

/-- Order of the BLS12-381 scalar field, the modulus of `fr.Element`. -/
def r : ℕ := 52435875175126190479447740508185965837690552500527637822603658699938581184513

/-- The scalar field: gnark's `fr.Element` in canonical (value) form. -/
abbrev Fr : Type := ZMod r

/-- Decidable equality for `Except`, needed to evaluate embedded functions on
concrete inputs. -/
instance {ε α : Type} [DecidableEq ε] [DecidableEq α] : DecidableEq (Except ε α)
  | .ok x, .ok y =>
    if h : x = y then .isTrue (congrArg Except.ok h)
    else .isFalse (fun hc => h (Except.ok.inj hc))
  | .error x, .error y =>
    if h : x = y then .isTrue (congrArg Except.error h)
    else .isFalse (fun hc => h (Except.error.inj hc))
  | .ok _, .error _ => .isFalse nofun
  | .error _, .ok _ => .isFalse nofun

/-- Square-and-multiply exponentiation, processing the exponent bit by bit;
this is gnark's `Element.Exp` on a `big.Int` exponent.  The structural `fuel`
argument bounds the number of exponent bits so that the kernel can evaluate
the function; every exponent appearing in the code is below `2 ^ 256`. -/
def frExpAux : ℕ → Fr → ℕ → Fr
  | 0, _, _ => 1
  | fuel + 1, a, n =>
    if n = 0 then 1
    else (if n % 2 = 1 then a else 1) * frExpAux fuel (a * a) (n / 2)

/-- Field exponentiation `a ^ n` as computed by gnark's `Element.Exp`. -/
def frExp (a : Fr) (n : ℕ) : Fr := frExpAux 256 a n

/-- Square-and-multiply exponentiation in an arbitrary monoid with structural
fuel, kernel-evaluable; used by the primality certificates that establish the
field order prime. -/
def powAux {M : Type} [Monoid M] : ℕ → M → ℕ → M
  | 0, _, _ => 1
  | fuel + 1, a, n =>
    if n = 0 then 1
    else (if n % 2 = 1 then a else 1) * powAux fuel (a * a) (n / 2)

/-- Field inversion as computed by gnark's `Element.Inverse`: the modular
inverse for invertible elements and `0` for `0`.  Since `r` is prime this is
`a ^ (r - 2)` (Fermat), which the kernel can evaluate. -/
def frInv (a : Fr) : Fr := frExp a (r - 2)

/-- Elementwise inversion of a slice: gnark's `fr.BatchInvert` (the Montgomery
batch trick computes exactly the elementwise inverses, and keeps zero entries
at zero, which `frInv` also does). -/
def batchInvert (l : List Fr) : List Fr := l.map frInv

/-! ### Error kinds

One constructor per distinct failure surfaced by the embedded functions. -/

/-- Error kinds of the embedded functions. `indexOutOfRange` stands for the Go
runtime panic raised by an out-of-range slice index. -/
inductive Err where
  | polyDomainSizeMismatch
  | scalarsPointsLengthMismatch
  | nonCanonicalScalar
  | pointDecodeError
  | hexDecodeError
  | lagrangeMonomialLengthMismatch
  | unexpectedLagrangeSetup
  | indexOutOfRange
deriving DecidableEq

/-! ### Serialisation codec (`serialisation.go`)

A serialised scalar is 32 wire bytes (little-endian); bytes are `ℕ` values. -/

/-- Number of bytes of a serialised scalar (`SERIALISED_SCALAR_SIZE`). -/
def SERIALISED_SCALAR_SIZE : ℕ := 32

/-- Number of field elements in a blob (`FIELD_ELEMENTS_PER_BLOB`). -/
def FIELD_ELEMENTS_PER_BLOB : ℕ := 4096

/-- A serialised scalar: a list of bytes (32 of them on the wire). -/
abbrev SerialisedScalar := List ℕ

/-- A polynomial in Lagrange form: `kzg.Polynomial = []fr.Element`. -/
abbrev Polynomial := List Fr

/-- Integer value of a byte list read little-endian (first byte is least
significant): the wire-format value of a serialised scalar. -/
def leVal (bs : List ℕ) : ℕ := bs.foldr (fun b acc => acc * 256 + b) 0

/-- Integer value of a byte list read big-endian (gnark's native byte order). -/
def beVal (bs : List ℕ) : ℕ := bs.foldl (fun acc b => acc * 256 + b) 0

/-- Little-endian 32-byte encoding of a value below `2 ^ 256`. -/
def leBytes32 (v : ℕ) : List ℕ := (List.range 32).map fun i => v / 256 ^ i % 256

/-- Modelled from the spec: `utils.ReduceCanonical` (FieldUtils, not among the
given sources) interprets big-endian bytes as an integer and performs the
canonical-reduction check — the scalar is accepted only if the integer value
is strictly below the field modulus, and is never reduced modulo the field.
Returns `none` when the value is non-canonical. -/
def reduceCanonical (bs : List ℕ) : Option Fr :=
  if beVal bs < r then some ((beVal bs : ℕ) : Fr) else none

/-- Embeds `deserialiseScalar`: reverse the 32 wire bytes (wire format is
little-endian, gnark is big-endian — `utils.ReverseArray`, modelled from the
spec as list reversal), then apply the canonical-reduction check. -/
def deserialiseScalar (serScalar : SerialisedScalar) : Except Err Fr :=
  match reduceCanonical serScalar.reverse with
  | none => .error .nonCanonicalScalar
  | some scalar => .ok scalar

/-- Embeds `deserialisePoly`: decode every serialised scalar of the blob in
order, aborting on the first non-canonical element. -/
def deserialisePoly : List SerialisedScalar → Except Err Polynomial
  | [] => .ok []
  | s :: rest =>
    match deserialiseScalar s with
    | .error e => .error e
    | .ok scalar =>
      match deserialisePoly rest with
      | .error e => .error e
      | .ok poly => .ok (scalar :: poly)

/-- Embeds `deserialiseG1Point`: `point.SetBytes` of the external curve
library (with on-curve and subgroup checks), abstracted as the parameter
`setBytes`; a decode failure becomes `pointDecodeError`. -/
def deserialiseG1Point {G : Type} (setBytes : List ℕ → Option G) (serPoint : List ℕ) :
    Except Err G :=
  match setBytes serPoint with
  | some point => .ok point
  | none => .error .pointDecodeError

/-- Embeds `deserialiseComms`: decode a list of serialised commitments in
order, aborting on the first invalid point. -/
def deserialiseComms {G : Type} (setBytes : List ℕ → Option G) :
    List (List ℕ) → Except Err (List G)
  | [] => .ok []
  | s :: rest =>
    match deserialiseG1Point setBytes s with
    | .error e => .error e
    | .ok point =>
      match deserialiseComms setBytes rest with
      | .error e => .error e
      | .ok points => .ok (point :: points)

/-! ### Domain (`internal/kzg/domain.go`) -/

/-- The `Domain` struct of `internal/kzg/domain.go`. -/
structure Domain where
  Cardinality : ℕ
  CardinalityInv : Fr
  Generator : Fr
  GeneratorInv : Fr
  Roots : List Fr
  PreComputedInverses : List Fr
deriving DecidableEq

/-- Fuel-structural helper for `trailingZeros64`. -/
def tzAux : ℕ → ℕ → ℕ
  | 0, _ => 0
  | fuel + 1, n => if n % 2 = 1 then 0 else 1 + tzAux fuel (n / 2)

/-- Models `bits.TrailingZeros64` on a `uint64` value (64 for input 0). -/
def trailingZeros64 (n : ℕ) : ℕ := if n = 0 then 64 else tzAux 64 n

/-- Modelled from the spec: `utils.IsPowerOfTwo` (FieldUtils power-of-two
test, not among the given sources); true exactly on the `uint64` powers of
two. -/
def isPowerOfTwo (n : ℕ) : Bool := (List.range 65).any fun k => n == 2 ^ k

/-- Fuel-structural helper for `bitLen64`. -/
def bitLenAux : ℕ → ℕ → ℕ
  | 0, _ => 0
  | fuel + 1, n => if n = 0 then 0 else bitLenAux fuel (n / 2) + 1

/-- Bit length of a `uint64` value (`64 - bits.LeadingZeros64`). -/
def bitLen64 (n : ℕ) : ℕ := bitLenAux 64 n

/-- Models gnark's `ecc.NextPowerOfTwo` on a `uint64`: the input itself when
it is a power of two, otherwise `1` shifted past the highest set bit;
`none` models the panic when that shift overflows 64 bits. -/
def nextPowerOfTwo (n : ℕ) : Option ℕ :=
  if isPowerOfTwo n then some n
  else if 2 ^ 63 < n then none
  else some (2 ^ bitLen64 n)

/-- The iterative roots computation of `NewDomain`: starting from `current`,
emit `k` elements, multiplying by `g` after each (`root[0] = current`,
`root[i] = root[i-1] * g`). -/
def powList (g : Fr) : ℕ → Fr → List Fr
  | 0, _ => []
  | k + 1, current => current :: powList g k (current * g)

/-- The fixed generator of the largest 2-adic subgroup of `Fr` hard-coded in
`NewDomain` (order `2 ^ 32`). -/
def rootOfUnity : Fr :=
  ((10238227357739495823651030575849232062558860180284477541189508159991286009131 : ℕ) : Fr)

/-- Maximum supported 2-adic order (`maxOrderRoot`). -/
def maxOrderRoot : ℕ := 32

/-- Embeds `NewDomain`: round the size up to the next power of two `x`,
fail (`none` models the panic) when a root of unity of order `x` does not
exist (`log2 x > 32`), otherwise build the generator of order `x`, the `x`
roots of unity, and the precomputed inverses. -/
def NewDomain (m : ℕ) : Option Domain :=
  match nextPowerOfTwo m with
  | none => none
  | some x =>
    let logx := trailingZeros64 x
    if logx > maxOrderRoot then none
    else
      let generator := frExp rootOfUnity (2 ^ (maxOrderRoot - logx))
      let roots := powList generator x 1
      some
        { Cardinality := x
          CardinalityInv := frInv ((x : ℕ) : Fr)
          Generator := generator
          GeneratorInv := frInv generator
          Roots := roots
          PreComputedInverses := roots.map frInv }

/-- Linear scan of `findRootIndex`, carrying the current index. -/
def findRootIndexAux (z : Fr) : List Fr → ℕ → Option ℕ
  | [], _ => none
  | root :: rest, i => if root = z then some i else findRootIndexAux z rest (i + 1)

/-- Embeds `findRootIndex`: index of `z` among the first `Cardinality` roots,
or `none` (the Go code returns `-1`).  The scan reads `Roots[0..Cardinality)`;
all uses in this development carry the domain invariant
`Roots.length = Cardinality`, under which `take` reads exactly those entries. -/
def findRootIndex (d : Domain) (z : Fr) : Option ℕ :=
  findRootIndexAux z (d.Roots.take d.Cardinality) 0

/-- Embeds the private `evaluateLagrangePolynomial`: the returned pair is the
evaluation together with the index of the evaluation point in the domain
(`none` models the Go `-1`).  In-bounds reads are written with `getD`; the
theorems about this function carry the domain invariant
`Roots.length = Cardinality` and the checked `poly.length = Cardinality`,
under which every `getD` is a genuine in-bounds read. -/
def evaluateLagrangePolynomial (d : Domain) (poly : Polynomial) (z : Fr) :
    Except Err (Fr × Option ℕ) :=
  if d.Cardinality ≠ poly.length then .error .polyDomainSizeMismatch
  else
    match findRootIndex d z with
    | some indexInDomain => .ok (poly.getD indexInDomain 0, some indexInDomain)
    | none =>
      let denom := (List.range d.Cardinality).map fun i => z - d.Roots.getD i 0
      let invDenom := batchInvert denom
      let result := (List.range d.Cardinality).foldl
        (fun acc i => acc + poly.getD i 0 * d.Roots.getD i 0 * invDenom.getD i 0) 0
      let tmp := (frExp z d.Cardinality - 1) * d.CardinalityInv
      .ok (tmp * result, none)

/-- Embeds the public `EvaluateLagrangePolynomial` wrapper: drop the index. -/
def EvaluateLagrangePolynomial (d : Domain) (poly : Polynomial) (z : Fr) : Except Err Fr :=
  (evaluateLagrangePolynomial d poly z).map Prod.fst

/-- Bounds-checked slice write: `none` models the Go index-out-of-range
panic. -/
def setAt (l : List Fr) (i : ℕ) (v : Fr) : Option (List Fr) :=
  if i < l.length then some (l.set i v) else none

/-- Embeds `EvaluateLagrangePolynomials` (the batched evaluator), including
its unguarded slice accesses: every index into `denom`, `polys`, `evalPoints`
and `Roots` is bounds-checked, and `none` models the Go panic on the first
out-of-range access.  The `denom` slice is sized
`Cardinality * numBatchInversionsNeeded` and filled at offsets
`polyOffset + rootIndex`, exactly as in the source. -/
def EvaluateLagrangePolynomials (d : Domain) (polys : List Polynomial)
    (evalPoints : List Fr) : Option (List Fr) := do
  let indicesInDomain ← (List.range polys.length).mapM fun i => do
    let z ← evalPoints.get? i
    pure (findRootIndex d z)
  let numBatchInversionsNeeded := (indicesInDomain.filter fun idx => idx == none).length
  let denomStart := List.replicate (d.Cardinality * numBatchInversionsNeeded) (0 : Fr)
  let denomFilled ← evalPoints.enum.foldlM
    (fun den pair =>
      (List.range d.Cardinality).foldlM
        (fun den2 rootIndex => do
          let root ← d.Roots.get? rootIndex
          setAt den2 (pair.1 + rootIndex) (pair.2 - root))
        den)
    denomStart
  let denom := batchInvert denomFilled
  (List.range indicesInDomain.length).mapM fun i => do
    let poly ← polys.get? i
    let evalPoint ← evalPoints.get? i
    let idx ← indicesInDomain.get? i
    match idx with
    | some indexInDomain => poly.get? indexInDomain
    | none => do
      let result ← (List.range d.Cardinality).foldlM
        (fun acc rootIndex => do
          let pv ← poly.get? rootIndex
          let rv ← d.Roots.get? rootIndex
          let dv ← denom.get? (rootIndex + i)
          pure (acc + pv * rv * dv))
        (0 : Fr)
      pure ((frExp evalPoint d.Cardinality - 1) * d.CardinalityInv * result)

/-- Fuel-structural bit reversal accumulator: shifts the low bits of `n` into
`acc` most-significant-first. -/
def revAux : ℕ → ℕ → ℕ → ℕ
  | 0, _, acc => acc
  | fuel + 1, n, acc => revAux fuel (n / 2) (2 * acc + n % 2)

/-- Models `bits.Reverse64`: the 64-bit representation of `n`, reversed. -/
def reverse64 (n : ℕ) : ℕ := revAux 64 n 0

/-- The reversed index of `bitReverse`:
`irev := bits.Reverse64(i) >> (64 - bits.TrailingZeros64(n))`. -/
def bitRevIndex (n i : ℕ) : ℕ := reverse64 i / 2 ^ (64 - trailingZeros64 n)

/-- Swap of two list positions, as the Go parallel assignment
`list[i], list[irev] = list[irev], list[i]`. -/
def swapL (l : List Fr) (i j : ℕ) : List Fr := (l.set i (l.getD j 0)).set j (l.getD i 0)

/-- One iteration of the `bitReverse` loop: compute `irev` and swap when
`irev > i`. -/
def bitRevStep (n : ℕ) (acc : List Fr) (i : ℕ) : List Fr :=
  let irev := bitRevIndex n i
  if i < irev then swapL acc i irev else acc

/-- Embeds the generic `bitReverse`: `none` models the panic when the length
is not a power of two, otherwise swap positions `i` and `irev` whenever
`irev > i`, for `i` from `0` to `n - 1`. -/
def bitReverse (l : List Fr) : Option (List Fr) :=
  if isPowerOfTwo l.length then
    some ((List.range l.length).foldl (bitRevStep l.length) l)
  else none

/-- Embeds `Domain.ReverseRoots`: bit-reverse the roots and the precomputed
inverses (the Go method mutates the domain in place; the model returns the
updated domain, `none` modelling the panic). -/
def ReverseRoots (d : Domain) : Option Domain :=
  match bitReverse d.Roots with
  | none => none
  | some roots =>
    match bitReverse d.PreComputedInverses with
    | none => none
    | some inverses => some { d with Roots := roots, PreComputedInverses := inverses }

/-! ### MultiExp (`internal/multiexp/multiexp.go`)

The commitment group is abstracted as an additive commutative monoid; a
scalar acts by its canonical integer value. -/

/-- Modelled from the spec: the external `result.MultiExp` delegate computes
`Σ scalars[i] * points[i]`; a single scalar acts on a point by its canonical
integer value. -/
def scalarMul {G : Type} [AddCommMonoid G] (s : Fr) (p : G) : G := s.val • p

/-- Embeds `MultiExp`: a length mismatch is an error, an empty input returns
the group identity (the zero value of `curve.G1Affine`), and otherwise the
result is the multi-scalar multiplication `Σ scalars[i] * points[i]`
(external delegate, modelled from the spec contract). -/
def MultiExp {G : Type} [AddCommMonoid G] (scalars : List Fr) (points : List G) :
    Except Err G :=
  if scalars.length ≠ points.length then .error .scalarsPointsLengthMismatch
  else if scalars.length = 0 then .ok 0
  else .ok ((scalars.zip points).foldl (fun acc sp => acc + scalarMul sp.1 sp.2) 0)

/-! ### Trusted setup (`CheckTrustedSetupWellFormed`)

Hex strings are lists of characters; G1/G2 points and their codecs are
abstract parameters (external curve library). -/

/-- Value of one hex digit, as accepted by Go's `encoding/hex` decoder. -/
def hexDigitVal (c : Char) : Option ℕ :=
  if '0' ≤ c ∧ c ≤ '9' then some (c.toNat - '0'.toNat)
  else if 'a' ≤ c ∧ c ≤ 'f' then some (c.toNat - 'a'.toNat + 10)
  else if 'A' ≤ c ∧ c ≤ 'F' then some (c.toNat - 'A'.toNat + 10)
  else none

/-- Models `hex.DecodeString`: decode pairs of hex digits to bytes; `none` on
an odd length or an invalid digit. -/
def hexDecode : List Char → Option (List ℕ)
  | [] => some []
  | [_] => none
  | c1 :: c2 :: rest => do
    let hi ← hexDigitVal c1
    let lo ← hexDigitVal c2
    let tail ← hexDecode rest
    pure ((16 * hi + lo) :: tail)

/-- Lowercase hex digit of a value below 16, as emitted by Go's
`hex.EncodeToString`. -/
def hexDigitChar (n : ℕ) : Char :=
  if n < 10 then Char.ofNat (Char.toNat '0' + n) else Char.ofNat (Char.toNat 'a' + (n - 10))

/-- Models `hex.EncodeToString`: two lowercase hex digits per byte. -/
def hexEncode (bs : List ℕ) : List Char :=
  bs.foldr (fun b acc => hexDigitChar (b / 16) :: hexDigitChar (b % 16) :: acc) []

/-- The `JSONTrustedSetup` struct: three lists of hex strings.  In the Go
declaration `SetupG1` and `SetupG1Lagrange` are `[ScalarsPerBlob]`-sized
arrays of strings; they are modelled as lists so that the explicit length
guard in `CheckTrustedSetupWellFormed` (written for general `len`) is
exercised rather than vacuous. -/
structure JSONTrustedSetup where
  SetupG1 : List (List Char)
  SetupG2 : List (List Char)
  SetupG1Lagrange : List (List Char)

/-- The G1 decode loop of `CheckTrustedSetupWellFormed`: hex-decode each
entry and parse it with subgroup checks (`point.SetBytes`, abstracted as
`setBytesG1`), collecting the points; the first failure aborts. -/
def decodeG1List {G1 : Type} (setBytesG1 : List ℕ → Option G1) :
    List (List Char) → Except Err (List G1)
  | [] => .ok []
  | s :: rest =>
    match hexDecode s with
    | none => .error .hexDecodeError
    | some byts =>
      match setBytesG1 byts with
      | none => .error .pointDecodeError
      | some point =>
        match decodeG1List setBytesG1 rest with
        | .error e => .error e
        | .ok points => .ok (point :: points)

/-- The comparison loop of `CheckTrustedSetupWellFormed`: serialise each
computed Lagrange point (`Bytes`, abstracted as `bytesG1`), hex-encode it and
compare it with the supplied hex entry; the first mismatch fails.  Running out
of supplied entries models the Go index-out-of-range panic. -/
def checkLagrange {G1 : Type} (bytesG1 : G1 → List ℕ) :
    List G1 → List (List Char) → Except Err Unit
  | [], _ => .ok ()
  | _ :: _, [] => .error .indexOutOfRange
  | point :: rest, s :: srest =>
    if hexEncode (bytesG1 point) ≠ s then .error .unexpectedLagrangeSetup
    else checkLagrange bytesG1 rest srest

/-- The G2 decode loop of `CheckTrustedSetupWellFormed`: hex-decode and parse
each G2 entry with subgroup checks, discarding the points. -/
def decodeG2List {G2 : Type} (setBytesG2 : List ℕ → Option G2) :
    List (List Char) → Except Err Unit
  | [] => .ok ()
  | s :: rest =>
    match hexDecode s with
    | none => .error .hexDecodeError
    | some byts =>
      match setBytesG2 byts with
      | none => .error .pointDecodeError
      | some _ => decodeG2List setBytesG2 rest

/-- Embeds `CheckTrustedSetupWellFormed`.  The length guard runs first; then
every `SetupG1` entry is decoded with subgroup checks; the monomial points
are converted to Lagrange form by the inverse FFT over the domain of
cardinality `ScalarsPerBlob` — `Domain.IfftG1` is not among the given
sources, so (modelled from the spec) it is abstracted as the parameter
`ifftG1`; each computed point is re-encoded and compared byte-for-byte (hex)
with the supplied `SetupG1Lagrange` entry; finally every `SetupG2` entry is
decoded. -/
def CheckTrustedSetupWellFormed {G1 G2 : Type} (setBytesG1 : List ℕ → Option G1)
    (bytesG1 : G1 → List ℕ) (ifftG1 : List G1 → List G1)
    (setBytesG2 : List ℕ → Option G2) (trustedSetup : JSONTrustedSetup) :
    Except Err Unit :=
  if trustedSetup.SetupG1.length ≠ trustedSetup.SetupG1Lagrange.length then
    .error .lagrangeMonomialLengthMismatch
  else
    match decodeG1List setBytesG1 trustedSetup.SetupG1 with
    | .error e => .error e
    | .ok setupG1Points =>
      let setupLagrangeG1 := ifftG1 setupG1Points
      match checkLagrange bytesG1 setupLagrangeG1 trustedSetup.SetupG1Lagrange with
      | .error e => .error e
      | .ok _ => decodeG2List setBytesG2 trustedSetup.SetupG2

/-! ### Concrete domain for evaluations

`NewDomain 2` gives the smallest non-trivial domain; its generator is the
order-2 root of unity `r - 1`. -/

/-- The domain built by `NewDomain 2` (cardinality 2, roots `[1, -1]`). -/
def domain2 : Domain := (NewDomain 2).getD ⟨0, 0, 0, 0, [], []⟩

/-- Specification-side rounding: the least power of two that is at least
`m` (and at least 1). -/
def nextPow2Spec (m : ℕ) : ℕ := if m = 0 then 1 else 2 ^ Nat.clog 2 m

/-! ## Field lemmas -/

theorem frExpAux_eq_pow (fuel : ℕ) :
    ∀ (a : Fr) (n : ℕ), n < 2 ^ fuel → frExpAux fuel a n = a ^ n := by
  induction fuel with
  | zero =>
    intro a n hn
    interval_cases n
    simp [frExpAux]
  | succ fuel ih =>
    intro a n hn
    rw [frExpAux]
    by_cases h0 : n = 0
    · simp [h0]
    · simp only [h0, if_false]
      have hdiv : n / 2 < 2 ^ fuel := by
        rw [Nat.pow_succ] at hn; omega
      rw [ih (a * a) (n / 2) hdiv]
      have hsq : (a * a) ^ (n / 2) = a ^ (2 * (n / 2)) := by
        rw [two_mul, pow_add, mul_pow]
      rw [hsq]
      rcases Nat.mod_two_eq_zero_or_one n with hm | hm
      · have h2 : 2 * (n / 2) = n := by omega
        simp [hm, h2]
      · have h2 : 2 * (n / 2) + 1 = n := by omega
        rw [hm, if_pos rfl, ← pow_succ', h2]

theorem frExp_eq_pow (a : Fr) (n : ℕ) (hn : n < 2 ^ 256) : frExp a n = a ^ n :=
  frExpAux_eq_pow 256 a n hn

theorem powAux_eq_pow {M : Type} [Monoid M] (fuel : ℕ) :
    ∀ (a : M) (n : ℕ), n < 2 ^ fuel → powAux fuel a n = a ^ n := by
  induction fuel with
  | zero =>
    intro a n hn
    interval_cases n
    simp [powAux]
  | succ fuel ih =>
    intro a n hn
    rw [powAux]
    by_cases h0 : n = 0
    · simp [h0]
    · simp only [h0, if_false]
      have hdiv : n / 2 < 2 ^ fuel := by
        rw [Nat.pow_succ] at hn; omega
      rw [ih (a * a) (n / 2) hdiv]
      have hsq : (a * a) ^ (n / 2) = a ^ (2 * (n / 2)) := by
        rw [← pow_two, ← pow_mul]
      rw [hsq]
      rcases Nat.mod_two_eq_zero_or_one n with hm | hm
      · have h2 : 2 * (n / 2) = n := by omega
        simp [hm, h2]
      · have h2 : 2 * (n / 2) + 1 = n := by omega
        rw [hm, if_pos rfl, ← pow_succ', h2]

theorem prime_110573 : Nat.Prime 110573 := by
  have hf : (110573 : ℕ) - 1 = 2 ^ 2 * (7 * (11 * (359))) := by norm_num
  apply lucas_primality 110573 3
  · rw [← powAux_eq_pow 64 (3 : ZMod 110573) (110573 - 1) (by norm_num)]
    decide
  · intro q hq hdvd
    have hql : q = 2 ∨ q = 7 ∨ q = 11 ∨ q = 359 := by
      rw [hf] at hdvd
      rcases (Nat.Prime.dvd_mul hq).mp hdvd with h | h
      · exact Or.inl ((Nat.prime_dvd_prime_iff_eq hq (by norm_num)).mp (hq.dvd_of_dvd_pow h))
      rcases (Nat.Prime.dvd_mul hq).mp h with h | h
      · exact Or.inr (Or.inl ((Nat.prime_dvd_prime_iff_eq hq (by norm_num)).mp h))
      rcases (Nat.Prime.dvd_mul hq).mp h with h | h
      · exact Or.inr (Or.inr (Or.inl ((Nat.prime_dvd_prime_iff_eq hq (by norm_num)).mp h)))
      · exact Or.inr (Or.inr (Or.inr ((Nat.prime_dvd_prime_iff_eq hq (by norm_num)).mp h)))
    rcases hql with rfl | rfl | rfl | rfl <;>
    · rw [← powAux_eq_pow 64 (3 : ZMod 110573) _ (by norm_num)]
      decide

theorem prime_125527 : Nat.Prime 125527 := by
  have hf : (125527 : ℕ) - 1 = 2 * (3 * (20921)) := by norm_num
  apply lucas_primality 125527 5
  · rw [← powAux_eq_pow 64 (5 : ZMod 125527) (125527 - 1) (by norm_num)]
    decide
  · intro q hq hdvd
    have hql : q = 2 ∨ q = 3 ∨ q = 20921 := by
      rw [hf] at hdvd
      rcases (Nat.Prime.dvd_mul hq).mp hdvd with h | h
      · exact Or.inl ((Nat.prime_dvd_prime_iff_eq hq (by norm_num)).mp h)
      rcases (Nat.Prime.dvd_mul hq).mp h with h | h
      · exact Or.inr (Or.inl ((Nat.prime_dvd_prime_iff_eq hq (by norm_num)).mp h))
      · exact Or.inr (Or.inr ((Nat.prime_dvd_prime_iff_eq hq (by norm_num)).mp h))
    rcases hql with rfl | rfl | rfl <;>
    · rw [← powAux_eq_pow 64 (5 : ZMod 125527) _ (by norm_num)]
      decide

theorem prime_609743 : Nat.Prime 609743 := by
  have hf : (609743 : ℕ) - 1 = 2 * (7 * (97 * (449))) := by norm_num
  apply lucas_primality 609743 5
  · rw [← powAux_eq_pow 64 (5 : ZMod 609743) (609743 - 1) (by norm_num)]
    decide
  · intro q hq hdvd
    have hql : q = 2 ∨ q = 7 ∨ q = 97 ∨ q = 449 := by
      rw [hf] at hdvd
      rcases (Nat.Prime.dvd_mul hq).mp hdvd with h | h
      · exact Or.inl ((Nat.prime_dvd_prime_iff_eq hq (by norm_num)).mp h)
      rcases (Nat.Prime.dvd_mul hq).mp h with h | h
      · exact Or.inr (Or.inl ((Nat.prime_dvd_prime_iff_eq hq (by norm_num)).mp h))
      rcases (Nat.Prime.dvd_mul hq).mp h with h | h
      · exact Or.inr (Or.inr (Or.inl ((Nat.prime_dvd_prime_iff_eq hq (by norm_num)).mp h)))
      · exact Or.inr (Or.inr (Or.inr ((Nat.prime_dvd_prime_iff_eq hq (by norm_num)).mp h)))
    rcases hql with rfl | rfl | rfl | rfl <;>
    · rw [← powAux_eq_pow 64 (5 : ZMod 609743) _ (by norm_num)]
      decide

theorem prime_859267 : Nat.Prime 859267 := by
  have hf : (859267 : ℕ) - 1 = 2 * (3 ^ 2 * (47737)) := by norm_num
  apply lucas_primality 859267 2
  · rw [← powAux_eq_pow 64 (2 : ZMod 859267) (859267 - 1) (by norm_num)]
    decide
  · intro q hq hdvd
    have hql : q = 2 ∨ q = 3 ∨ q = 47737 := by
      rw [hf] at hdvd
      rcases (Nat.Prime.dvd_mul hq).mp hdvd with h | h
      · exact Or.inl ((Nat.prime_dvd_prime_iff_eq hq (by norm_num)).mp h)
      rcases (Nat.Prime.dvd_mul hq).mp h with h | h
      · exact Or.inr (Or.inl ((Nat.prime_dvd_prime_iff_eq hq (by norm_num)).mp (hq.dvd_of_dvd_pow h)))
      · exact Or.inr (Or.inr ((Nat.prime_dvd_prime_iff_eq hq (by norm_num)).mp h))
    rcases hql with rfl | rfl | rfl <;>
    · rw [← powAux_eq_pow 64 (2 : ZMod 859267) _ (by norm_num)]
      decide

theorem prime_906349 : Nat.Prime 906349 := by
  have hf : (906349 : ℕ) - 1 = 2 ^ 2 * (3 * (47 * (1607))) := by norm_num
  apply lucas_primality 906349 2
  · rw [← powAux_eq_pow 64 (2 : ZMod 906349) (906349 - 1) (by norm_num)]
    decide
  · intro q hq hdvd
    have hql : q = 2 ∨ q = 3 ∨ q = 47 ∨ q = 1607 := by
      rw [hf] at hdvd
      rcases (Nat.Prime.dvd_mul hq).mp hdvd with h | h
      · exact Or.inl ((Nat.prime_dvd_prime_iff_eq hq (by norm_num)).mp (hq.dvd_of_dvd_pow h))
      rcases (Nat.Prime.dvd_mul hq).mp h with h | h
      · exact Or.inr (Or.inl ((Nat.prime_dvd_prime_iff_eq hq (by norm_num)).mp h))
      rcases (Nat.Prime.dvd_mul hq).mp h with h | h
      · exact Or.inr (Or.inr (Or.inl ((Nat.prime_dvd_prime_iff_eq hq (by norm_num)).mp h)))
      · exact Or.inr (Or.inr (Or.inr ((Nat.prime_dvd_prime_iff_eq hq (by norm_num)).mp h)))
    rcases hql with rfl | rfl | rfl | rfl <;>
    · rw [← powAux_eq_pow 64 (2 : ZMod 906349) _ (by norm_num)]
      decide

theorem prime_2508409 : Nat.Prime 2508409 := by
  have hf : (2508409 : ℕ) - 1 = 2 ^ 3 * (3 ^ 4 * (7 ^ 2 * (79))) := by norm_num
  apply lucas_primality 2508409 11
  · rw [← powAux_eq_pow 64 (11 : ZMod 2508409) (2508409 - 1) (by norm_num)]
    decide
  · intro q hq hdvd
    have hql : q = 2 ∨ q = 3 ∨ q = 7 ∨ q = 79 := by
      rw [hf] at hdvd
      rcases (Nat.Prime.dvd_mul hq).mp hdvd with h | h
      · exact Or.inl ((Nat.prime_dvd_prime_iff_eq hq (by norm_num)).mp (hq.dvd_of_dvd_pow h))
      rcases (Nat.Prime.dvd_mul hq).mp h with h | h
      · exact Or.inr (Or.inl ((Nat.prime_dvd_prime_iff_eq hq (by norm_num)).mp (hq.dvd_of_dvd_pow h)))
      rcases (Nat.Prime.dvd_mul hq).mp h with h | h
      · exact Or.inr (Or.inr (Or.inl ((Nat.prime_dvd_prime_iff_eq hq (by norm_num)).mp (hq.dvd_of_dvd_pow h))))
      · exact Or.inr (Or.inr (Or.inr ((Nat.prime_dvd_prime_iff_eq hq (by norm_num)).mp h)))
    rcases hql with rfl | rfl | rfl | rfl <;>
    · rw [← powAux_eq_pow 64 (11 : ZMod 2508409) _ (by norm_num)]
      decide

theorem prime_2529403 : Nat.Prime 2529403 := by
  have hf : (2529403 : ℕ) - 1 = 2 * (3 * (23 * (18329))) := by norm_num
  apply lucas_primality 2529403 2
  · rw [← powAux_eq_pow 64 (2 : ZMod 2529403) (2529403 - 1) (by norm_num)]
    decide
  · intro q hq hdvd
    have hql : q = 2 ∨ q = 3 ∨ q = 23 ∨ q = 18329 := by
      rw [hf] at hdvd
      rcases (Nat.Prime.dvd_mul hq).mp hdvd with h | h
      · exact Or.inl ((Nat.prime_dvd_prime_iff_eq hq (by norm_num)).mp h)
      rcases (Nat.Prime.dvd_mul hq).mp h with h | h
      · exact Or.inr (Or.inl ((Nat.prime_dvd_prime_iff_eq hq (by norm_num)).mp h))
      rcases (Nat.Prime.dvd_mul hq).mp h with h | h
      · exact Or.inr (Or.inr (Or.inl ((Nat.prime_dvd_prime_iff_eq hq (by norm_num)).mp h)))
      · exact Or.inr (Or.inr (Or.inr ((Nat.prime_dvd_prime_iff_eq hq (by norm_num)).mp h)))
    rcases hql with rfl | rfl | rfl | rfl <;>
    · rw [← powAux_eq_pow 64 (2 : ZMod 2529403) _ (by norm_num)]
      decide

theorem prime_2653753 : Nat.Prime 2653753 := by
  have hf : (2653753 : ℕ) - 1 = 2 ^ 3 * (3 * (110573)) := by norm_num
  apply lucas_primality 2653753 5
  · rw [← powAux_eq_pow 64 (5 : ZMod 2653753) (2653753 - 1) (by norm_num)]
    decide
  · intro q hq hdvd
    have hql : q = 2 ∨ q = 3 ∨ q = 110573 := by
      rw [hf] at hdvd
      rcases (Nat.Prime.dvd_mul hq).mp hdvd with h | h
      · exact Or.inl ((Nat.prime_dvd_prime_iff_eq hq (by norm_num)).mp (hq.dvd_of_dvd_pow h))
      rcases (Nat.Prime.dvd_mul hq).mp h with h | h
      · exact Or.inr (Or.inl ((Nat.prime_dvd_prime_iff_eq hq (by norm_num)).mp h))
      · exact Or.inr (Or.inr ((Nat.prime_dvd_prime_iff_eq hq prime_110573).mp h))
    rcases hql with rfl | rfl | rfl <;>
    · rw [← powAux_eq_pow 64 (5 : ZMod 2653753) _ (by norm_num)]
      decide

theorem prime_52437899 : Nat.Prime 52437899 := by
  have hf : (52437899 : ℕ) - 1 = 2 * (43 * (609743)) := by norm_num
  apply lucas_primality 52437899 2
  · rw [← powAux_eq_pow 64 (2 : ZMod 52437899) (52437899 - 1) (by norm_num)]
    decide
  · intro q hq hdvd
    have hql : q = 2 ∨ q = 43 ∨ q = 609743 := by
      rw [hf] at hdvd
      rcases (Nat.Prime.dvd_mul hq).mp hdvd with h | h
      · exact Or.inl ((Nat.prime_dvd_prime_iff_eq hq (by norm_num)).mp h)
      rcases (Nat.Prime.dvd_mul hq).mp h with h | h
      · exact Or.inr (Or.inl ((Nat.prime_dvd_prime_iff_eq hq (by norm_num)).mp h))
      · exact Or.inr (Or.inr ((Nat.prime_dvd_prime_iff_eq hq prime_609743).mp h))
    rcases hql with rfl | rfl | rfl <;>
    · rw [← powAux_eq_pow 64 (2 : ZMod 52437899) _ (by norm_num)]
      decide

theorem prime_63690073 : Nat.Prime 63690073 := by
  have hf : (63690073 : ℕ) - 1 = 2 ^ 3 * (3 * (2653753)) := by norm_num
  apply lucas_primality 63690073 7
  · rw [← powAux_eq_pow 64 (7 : ZMod 63690073) (63690073 - 1) (by norm_num)]
    decide
  · intro q hq hdvd
    have hql : q = 2 ∨ q = 3 ∨ q = 2653753 := by
      rw [hf] at hdvd
      rcases (Nat.Prime.dvd_mul hq).mp hdvd with h | h
      · exact Or.inl ((Nat.prime_dvd_prime_iff_eq hq (by norm_num)).mp (hq.dvd_of_dvd_pow h))
      rcases (Nat.Prime.dvd_mul hq).mp h with h | h
      · exact Or.inr (Or.inl ((Nat.prime_dvd_prime_iff_eq hq (by norm_num)).mp h))
      · exact Or.inr (Or.inr ((Nat.prime_dvd_prime_iff_eq hq prime_2653753).mp h))
    rcases hql with rfl | rfl | rfl <;>
    · rw [← powAux_eq_pow 64 (7 : ZMod 63690073) _ (by norm_num)]
      decide

theorem prime_254760293 : Nat.Prime 254760293 := by
  have hf : (254760293 : ℕ) - 1 = 2 ^ 2 * (63690073) := by norm_num
  apply lucas_primality 254760293 2
  · rw [← powAux_eq_pow 64 (2 : ZMod 254760293) (254760293 - 1) (by norm_num)]
    decide
  · intro q hq hdvd
    have hql : q = 2 ∨ q = 63690073 := by
      rw [hf] at hdvd
      rcases (Nat.Prime.dvd_mul hq).mp hdvd with h | h
      · exact Or.inl ((Nat.prime_dvd_prime_iff_eq hq (by norm_num)).mp (hq.dvd_of_dvd_pow h))
      · exact Or.inr ((Nat.prime_dvd_prime_iff_eq hq prime_63690073).mp h)
    rcases hql with rfl | rfl <;>
    · rw [← powAux_eq_pow 64 (2 : ZMod 254760293) _ (by norm_num)]
      decide

theorem r_sub_one_fact :
    r - 1 = 2 ^ 32 * (3 * (11 * (19 * (10177 * (125527 * (859267 * (906349 ^ 2 *
      (2508409 * (2529403 * (52437899 * 254760293 ^ 2)))))))))) := by decide

theorem r_prime : Nat.Prime r := by
  have h256 : ∀ q : ℕ, 0 < q → (r - 1) / q < 2 ^ 256 := by
    intro q hq
    calc (r - 1) / q ≤ r - 1 := Nat.div_le_self _ _
    _ < 2 ^ 256 := by decide
  apply lucas_primality r 7
  · rw [← frExp_eq_pow 7 (r - 1) (by decide)]
    decide
  · intro q hq hdvd
    have hql : q = 2 ∨ q = 3 ∨ q = 11 ∨ q = 19 ∨ q = 10177 ∨ q = 125527 ∨ q = 859267 ∨
        q = 906349 ∨ q = 2508409 ∨ q = 2529403 ∨ q = 52437899 ∨ q = 254760293 := by
      rw [r_sub_one_fact] at hdvd
      have p2 : Nat.Prime 2 := by norm_num
      have p3 : Nat.Prime 3 := by norm_num
      have p11 : Nat.Prime 11 := by norm_num
      have p19 : Nat.Prime 19 := by norm_num
      have p10177 : Nat.Prime 10177 := by norm_num
      have p125527 : Nat.Prime 125527 := prime_125527
      have p859267 : Nat.Prime 859267 := prime_859267
      have p906349 : Nat.Prime 906349 := prime_906349
      have p2508409 : Nat.Prime 2508409 := prime_2508409
      have p2529403 : Nat.Prime 2529403 := prime_2529403
      have p52437899 : Nat.Prime 52437899 := prime_52437899
      have p254760293 : Nat.Prime 254760293 := prime_254760293
      rcases (Nat.Prime.dvd_mul hq).mp hdvd with h | h
      · exact Or.inl ((Nat.prime_dvd_prime_iff_eq hq p2).mp (hq.dvd_of_dvd_pow h))
      rcases (Nat.Prime.dvd_mul hq).mp h with h | h
      · exact Or.inr (Or.inl ((Nat.prime_dvd_prime_iff_eq hq p3).mp h))
      rcases (Nat.Prime.dvd_mul hq).mp h with h | h
      · exact Or.inr (Or.inr (Or.inl ((Nat.prime_dvd_prime_iff_eq hq p11).mp h)))
      rcases (Nat.Prime.dvd_mul hq).mp h with h | h
      · exact Or.inr (Or.inr (Or.inr (Or.inl ((Nat.prime_dvd_prime_iff_eq hq p19).mp h))))
      rcases (Nat.Prime.dvd_mul hq).mp h with h | h
      · exact Or.inr (Or.inr (Or.inr (Or.inr (Or.inl
          ((Nat.prime_dvd_prime_iff_eq hq p10177).mp h)))))
      rcases (Nat.Prime.dvd_mul hq).mp h with h | h
      · exact Or.inr (Or.inr (Or.inr (Or.inr (Or.inr (Or.inl
          ((Nat.prime_dvd_prime_iff_eq hq p125527).mp h))))))
      rcases (Nat.Prime.dvd_mul hq).mp h with h | h
      · exact Or.inr (Or.inr (Or.inr (Or.inr (Or.inr (Or.inr (Or.inl
          ((Nat.prime_dvd_prime_iff_eq hq p859267).mp h)))))))
      rcases (Nat.Prime.dvd_mul hq).mp h with h | h
      · exact Or.inr (Or.inr (Or.inr (Or.inr (Or.inr (Or.inr (Or.inr (Or.inl
          ((Nat.prime_dvd_prime_iff_eq hq p906349).mp (hq.dvd_of_dvd_pow h)))))))))
      rcases (Nat.Prime.dvd_mul hq).mp h with h | h
      · exact Or.inr (Or.inr (Or.inr (Or.inr (Or.inr (Or.inr (Or.inr (Or.inr (Or.inl
          ((Nat.prime_dvd_prime_iff_eq hq p2508409).mp h)))))))))
      rcases (Nat.Prime.dvd_mul hq).mp h with h | h
      · exact Or.inr (Or.inr (Or.inr (Or.inr (Or.inr (Or.inr (Or.inr (Or.inr (Or.inr (Or.inl
          ((Nat.prime_dvd_prime_iff_eq hq p2529403).mp h))))))))))
      rcases (Nat.Prime.dvd_mul hq).mp h with h | h
      · exact Or.inr (Or.inr (Or.inr (Or.inr (Or.inr (Or.inr (Or.inr (Or.inr (Or.inr (Or.inr
          (Or.inl ((Nat.prime_dvd_prime_iff_eq hq p52437899).mp h)))))))))))
      · exact Or.inr (Or.inr (Or.inr (Or.inr (Or.inr (Or.inr (Or.inr (Or.inr (Or.inr (Or.inr
          (Or.inr ((Nat.prime_dvd_prime_iff_eq hq p254760293).mp
            (hq.dvd_of_dvd_pow h))))))))))))
    have hlt : (r - 1) / q < 2 ^ 256 := h256 q hq.pos
    rw [← frExp_eq_pow 7 ((r - 1) / q) hlt]
    rcases hql with rfl | rfl | rfl | rfl | rfl | rfl | rfl | rfl | rfl | rfl | rfl | rfl <;>
      decide

theorem frInv_eq_inv (a : Fr) : frInv a = a⁻¹ := by
  haveI : Fact (Nat.Prime r) := ⟨r_prime⟩
  rw [frInv, frExp_eq_pow a (r - 2) (by decide)]
  by_cases ha : a = 0
  · rw [ha, zero_pow (by decide : r - 2 ≠ 0), inv_zero]
  · refine eq_inv_of_mul_eq_one_left ?_
    have h1 : a ^ (r - 1) = 1 := ZMod.pow_card_sub_one_eq_one ha
    have h2 : r - 2 + 1 = r - 1 := by
      have := r_prime.two_le
      omega
    rw [← pow_succ, h2, h1]

/-! ## List helpers -/

theorem foldl_add_sum {α G : Type} [AddCommMonoid G] (h : α → G) :
    ∀ (l : List α) (a : G), l.foldl (fun acc x => acc + h x) a = a + (l.map h).sum := by
  intro l
  induction l with
  | nil => intro a; simp
  | cons x xs ih => intro a; simp [ih, add_assoc]

theorem sum_list_range_eq {G : Type} [AddCommMonoid G] (f : ℕ → G) :
    ∀ n : ℕ, ((List.range n).map f).sum = ∑ i ∈ Finset.range n, f i := by
  intro n
  induction n with
  | zero => simp
  | succ n ih => rw [List.range_succ]; simp [ih, Finset.sum_range_succ]

theorem getD_map_of_lt (f : Fr → Fr) {l : List Fr} {i : ℕ} (h : i < l.length) :
    (l.map f).getD i 0 = f (l.getD i 0) := by
  rw [List.getD_eq_getElem?_getD, List.getElem?_map, List.getElem?_eq_getElem h,
    List.getD_eq_getElem?_getD, List.getElem?_eq_getElem h]
  rfl

theorem getD_range_map (f : ℕ → Fr) {n i : ℕ} (h : i < n) :
    ((List.range n).map f).getD i 0 = f i := by
  rw [List.getD_eq_getElem?_getD]
  simp [List.getElem?_map, List.getElem?_range h]

/-! ## Serialisation lemmas -/

theorem beVal_reverse : ∀ bs : List ℕ, beVal bs.reverse = leVal bs := by
  intro bs
  induction bs with
  | nil => rfl
  | cons b rest ih =>
    rw [List.reverse_cons]
    show (rest.reverse ++ [b]).foldl (fun acc x => acc * 256 + x) 0 = leVal (b :: rest)
    rw [List.foldl_append]
    show beVal rest.reverse * 256 + b = leVal (b :: rest)
    rw [ih]
    rfl

theorem deserialiseScalar_eq (s : SerialisedScalar) :
    deserialiseScalar s =
      if leVal s < r then .ok ((leVal s : ℕ) : Fr) else .error .nonCanonicalScalar := by
  rw [deserialiseScalar, reduceCanonical, beVal_reverse]
  by_cases h : leVal s < r
  · rw [if_pos h, if_pos h]
  · rw [if_neg h, if_neg h]

theorem deserialisePoly_ok :
    ∀ l : List SerialisedScalar, (∀ s ∈ l, leVal s < r) →
      deserialisePoly l = .ok (l.map fun s => ((leVal s : ℕ) : Fr)) := by
  intro l
  induction l with
  | nil => intro _; rfl
  | cons s rest ih =>
    intro h
    rw [deserialisePoly, deserialiseScalar_eq, if_pos (h s (List.mem_cons_self s rest)),
      ih fun x hx => h x (List.mem_cons_of_mem s hx)]
    rfl

theorem deserialisePoly_err :
    ∀ l : List SerialisedScalar, (∃ s ∈ l, r ≤ leVal s) →
      deserialisePoly l = .error .nonCanonicalScalar := by
  intro l
  induction l with
  | nil => rintro ⟨s, hs, _⟩; cases hs
  | cons s rest ih =>
    rintro ⟨t, ht, htval⟩
    rw [deserialisePoly, deserialiseScalar_eq]
    rcases List.mem_cons.mp ht with rfl | htrest
    · rw [if_neg (by omega)]
    · by_cases hs : leVal s < r
      · rw [if_pos hs, ih ⟨t, htrest, htval⟩]
      · rw [if_neg hs]

theorem deserialiseComms_ok {G : Type} (setBytes : List ℕ → Option G) :
    ∀ l : List (List ℕ), (∀ s ∈ l, (setBytes s).isSome) →
      ∃ points, deserialiseComms setBytes l = .ok points ∧ l.map setBytes = points.map some := by
  intro l
  induction l with
  | nil => exact fun _ => ⟨[], rfl, rfl⟩
  | cons s rest ih =>
    intro h
    obtain ⟨p, hp⟩ := Option.isSome_iff_exists.mp (h s (List.mem_cons_self s rest))
    obtain ⟨points, hpts, hmap⟩ := ih fun x hx => h x (List.mem_cons_of_mem s hx)
    refine ⟨p :: points, ?_, ?_⟩
    · rw [deserialiseComms, deserialiseG1Point, hp, hpts]
    · rw [List.map_cons, List.map_cons, hp, hmap]

theorem deserialiseComms_err {G : Type} (setBytes : List ℕ → Option G) :
    ∀ l : List (List ℕ), (∃ s ∈ l, setBytes s = none) →
      deserialiseComms setBytes l = .error .pointDecodeError := by
  intro l
  induction l with
  | nil => rintro ⟨s, hs, _⟩; cases hs
  | cons s rest ih =>
    rintro ⟨t, ht, htnone⟩
    rw [deserialiseComms, deserialiseG1Point]
    rcases List.mem_cons.mp ht with rfl | htrest
    · rw [htnone]
    · cases hsb : setBytes s with
      | none => rfl
      | some p => rw [ih ⟨t, htrest, htnone⟩]

/-! ## Claims C1 and C2: the batched Lagrange evaluator -/

/-- C1: the claim states that `EvaluateLagrangePolynomials` returns, for each
pair, exactly the value `EvaluateLagrangePolynomial` returns independently.
This is false on the code: with the cardinality-2 domain `NewDomain 2`, the
polynomials `[[0,1],[0,1]]` and the out-of-domain points `[2,3]`, the batch
result differs from the list of independent single evaluations, because the
`denom` slice is filled at overlapping offsets `polyOffset + rootIndex`
(rather than disjoint blocks), so the second point's denominators overwrite
part of the first point's. -/
theorem claim_C1_diverges :
    EvaluateLagrangePolynomials domain2 [[0, 1], [0, 1]] [2, 3] ≠
      (do
        let a ← (EvaluateLagrangePolynomial domain2 [0, 1] 2).toOption
        let b ← (EvaluateLagrangePolynomial domain2 [0, 1] 3).toOption
        pure [a, b]) := by decide

/-- C2: the claim states that on equal-length inputs whose polynomials match
the domain cardinality every computed slice index is in bounds, so the batch
evaluator succeeds even when evaluation points lie in the domain.  This is
false on the code: with the cardinality-2 domain `NewDomain 2`, one
polynomial of matching length and the in-domain evaluation point `1`
(which is `Roots[0]`), `numBatchInversionsNeeded = 0`, so `denom` has length
`0`, yet the fill loop still writes `denom[0]` — an out-of-range index
(modelled as `none`), i.e. the Go code panics instead of succeeding. -/
theorem claim_C2_aborts :
    (([[(0 : Fr), 1]] : List Polynomial).length = [(1 : Fr)].length ∧
      ([(0 : Fr), 1] : Polynomial).length = domain2.Cardinality ∧
      findRootIndex domain2 1 = some 0) ∧
    EvaluateLagrangePolynomials domain2 [[0, 1]] [1] = none := by decide

/-! ## Claim C4: canonical scalar decoding -/

/-- C4: decoding a 32-byte serialised scalar reverses the byte order (the
wire value is the little-endian reading), succeeds exactly on values below
the field modulus — returning precisely that integer value, never a reduced
one — and fails with the non-canonical-scalar error otherwise; in particular
the little-endian encoding of `r - 1` decodes successfully. -/
theorem claim_C4 :
    (∀ s : SerialisedScalar, s.length = SERIALISED_SCALAR_SIZE →
      (leVal s < r →
        deserialiseScalar s = .ok ((leVal s : ℕ) : Fr) ∧ ((leVal s : ℕ) : Fr).val = leVal s)
      ∧ (r ≤ leVal s → deserialiseScalar s = .error .nonCanonicalScalar))
    ∧ deserialiseScalar (leBytes32 (r - 1)) = .ok ((r - 1 : ℕ) : Fr) := by
  constructor
  · intro s _
    constructor
    · intro h
      exact ⟨by rw [deserialiseScalar_eq, if_pos h], ZMod.val_cast_of_lt h⟩
    · intro h
      rw [deserialiseScalar_eq, if_neg (by omega)]
  · have hval : leVal (leBytes32 (r - 1)) = r - 1 := by decide
    rw [deserialiseScalar_eq, hval, if_pos (by decide : r - 1 < r)]

/-- Witness for C4: the little-endian encoding of `5` decodes to `5`. -/
theorem claim_C4_witness :
    deserialiseScalar (leBytes32 5) = .ok ((leVal (leBytes32 5) : ℕ) : Fr) :=
  ((claim_C4.1 (leBytes32 5) (by decide)).1 (by decide)).1

/-! ## Claims C7 and C9: MultiExp -/

/-- C7: `MultiExp` fails with the length-mismatch error whenever the scalar
and point lists have different lengths, and returns the group identity (not
an error) on empty inputs. -/
theorem claim_C7 {G : Type} [AddCommMonoid G] :
    (∀ (scalars : List Fr) (points : List G), scalars.length ≠ points.length →
      MultiExp scalars points = .error .scalarsPointsLengthMismatch)
    ∧ MultiExp ([] : List Fr) ([] : List G) = .ok 0 := by
  constructor
  · intro scalars points h
    rw [MultiExp, if_pos h]
  · rfl

/-- Witness for C7: a concrete length mismatch fails, and the empty input
returns the identity. -/
theorem claim_C7_witness :
    MultiExp [(1 : Fr)] ([] : List Fr) = .error .scalarsPointsLengthMismatch ∧
    MultiExp ([] : List Fr) ([] : List Fr) = .ok 0 :=
  ⟨(claim_C7 (G := Fr)).1 [1] [] (by decide), (claim_C7 (G := Fr)).2⟩

/-- C9: `MultiExp` is invariant under a permutation applied identically to
both input lists (stated via a permutation of the paired list), and
`MultiExp [1] [P]` returns `P`. -/
theorem claim_C9 {G : Type} [AddCommMonoid G] :
    (∀ l l' : List (Fr × G), l.Perm l' →
      MultiExp (l.map Prod.fst) (l.map Prod.snd) =
        MultiExp (l'.map Prod.fst) (l'.map Prod.snd))
    ∧ ∀ P : G, MultiExp [(1 : Fr)] [P] = .ok P := by
  have hzip : ∀ m : List (Fr × G), (m.map Prod.fst).zip (m.map Prod.snd) = m := by
    intro m
    rw [List.zip_map']
    simp
  constructor
  · intro l l' hperm
    have hlen := hperm.length_eq
    have hsum : (l.foldl (fun acc sp => acc + scalarMul sp.1 sp.2) 0 : G) =
        l'.foldl (fun acc sp => acc + scalarMul sp.1 sp.2) 0 := by
      rw [foldl_add_sum, foldl_add_sum]
      exact congrArg (0 + ·) (hperm.map fun sp => scalarMul sp.1 sp.2).sum_eq
    rw [MultiExp, MultiExp, hzip, hzip, List.length_map, List.length_map, List.length_map,
      List.length_map, hlen, hsum]
  · intro P
    have h1 : (1 : Fr).val = 1 := by decide
    show Except.ok ((0 : G) + scalarMul 1 P) = .ok P
    rw [scalarMul, h1, one_nsmul, zero_add]

/-- Witness for C9: a concrete two-element permutation gives the same result,
and multiplying a concrete point by the scalar one returns it. -/
theorem claim_C9_witness :
    MultiExp [(2 : Fr), 3] [(5 : Fr), 7] = MultiExp [(3 : Fr), 2] [(7 : Fr), 5] ∧
    MultiExp [(1 : Fr)] [(9 : Fr)] = .ok 9 :=
  ⟨(claim_C9 (G := Fr)).1 [(2, 5), (3, 7)] [(3, 7), (2, 5)] (by decide),
    (claim_C9 (G := Fr)).2 9⟩

/-! ## Claim C8: fail-fast batch deserialisation -/

/-- C8: deserialising a blob of `FIELD_ELEMENTS_PER_BLOB` serialised scalars
decodes every element and succeeds (with the full decoded polynomial) exactly
when every element is canonical, failing with the non-canonical-scalar error
as soon as any element is non-canonical — no partial polynomial is ever
returned; deserialising a commitment list has the same fail-fast,
all-or-nothing behaviour with respect to point decoding. -/
theorem claim_C8 {G : Type} (setBytes : List ℕ → Option G) :
    (∀ serPoly : List SerialisedScalar, serPoly.length = FIELD_ELEMENTS_PER_BLOB →
      ((∀ s ∈ serPoly, leVal s < r) →
        deserialisePoly serPoly = .ok (serPoly.map fun s => ((leVal s : ℕ) : Fr)))
      ∧ ((∃ s ∈ serPoly, r ≤ leVal s) →
        deserialisePoly serPoly = .error .nonCanonicalScalar))
    ∧ ∀ serComms : List (List ℕ),
      ((∀ s ∈ serComms, (setBytes s).isSome) →
        ∃ points, deserialiseComms setBytes serComms = .ok points ∧
          serComms.map setBytes = points.map some)
      ∧ ((∃ s ∈ serComms, setBytes s = none) →
        deserialiseComms setBytes serComms = .error .pointDecodeError) := by
  constructor
  · intro serPoly _
    exact ⟨deserialisePoly_ok serPoly, deserialisePoly_err serPoly⟩
  · intro serComms
    exact ⟨deserialiseComms_ok setBytes serComms, deserialiseComms_err setBytes serComms⟩

/-- Witness for C8: an all-zero blob of 4096 scalars decodes fully, and a
one-element commitment list decodes under a total point decoder. -/
theorem claim_C8_witness :
    deserialisePoly (List.replicate 4096 (List.replicate 32 0)) =
      .ok ((List.replicate 4096 (List.replicate 32 0)).map fun s => ((leVal s : ℕ) : Fr)) ∧
    ∃ points, deserialiseComms (fun bs => (some bs : Option (List ℕ))) [[1, 2]] = .ok points ∧
      ([[1, 2]] : List (List ℕ)).map (fun bs => (some bs : Option (List ℕ))) =
        points.map some := by
  constructor
  · exact ((claim_C8 (G := List ℕ) (fun bs => some bs)).1 _
      (by rw [List.length_replicate, FIELD_ELEMENTS_PER_BLOB])).1
      fun s hs => by rw [List.eq_of_mem_replicate hs]; decide
  · exact ((claim_C8 (G := List ℕ) (fun bs => some bs)).2 [[1, 2]]).1 fun s _ => rfl

/-! ## Claim C3: trusted-setup well-formedness -/

theorem decodeG1List_length {G1 : Type} (setBytesG1 : List ℕ → Option G1) :
    ∀ (l : List (List Char)) (pts : List G1),
      decodeG1List setBytesG1 l = .ok pts → pts.length = l.length := by
  intro l
  induction l with
  | nil =>
    intro pts h
    simp only [decodeG1List] at h
    cases h
    rfl
  | cons s rest ih =>
    intro pts h
    simp only [decodeG1List] at h
    split at h
    · cases h
    · split at h
      · cases h
      · split at h
        · cases h
        · cases h
          simp [ih _ (by assumption)]

theorem checkLagrange_all {G1 : Type} (bytesG1 : G1 → List ℕ) :
    ∀ (computed : List G1) (supplied : List (List Char)),
      (∀ p ∈ computed.zip supplied, hexEncode (bytesG1 p.1) = p.2) →
      computed.length = supplied.length →
      checkLagrange bytesG1 computed supplied = .ok () := by
  intro computed
  induction computed with
  | nil =>
    intro supplied _ hlen
    cases supplied with
    | nil => rfl
    | cons s srest => simp at hlen
  | cons p rest ih =>
    intro supplied h hlen
    cases supplied with
    | nil => simp at hlen
    | cons s srest =>
      have hp : hexEncode (bytesG1 p) = s := h (p, s) (by simp)
      rw [checkLagrange, if_neg fun hne => hne hp]
      exact ih srest (fun q hq => h q (by simp [hq])) (by simpa using hlen)

theorem checkLagrange_mismatch {G1 : Type} (bytesG1 : G1 → List ℕ) :
    ∀ (computed : List G1) (supplied : List (List Char)),
      (∃ p ∈ computed.zip supplied, hexEncode (bytesG1 p.1) ≠ p.2) →
      checkLagrange bytesG1 computed supplied = .error .unexpectedLagrangeSetup := by
  intro computed
  induction computed with
  | nil =>
    rintro supplied ⟨q, hq, _⟩
    simp at hq
  | cons p rest ih =>
    rintro supplied ⟨q, hq, hqne⟩
    cases supplied with
    | nil => simp at hq
    | cons s srest =>
      rw [List.zip_cons_cons] at hq
      rcases List.mem_cons.mp hq with rfl | hqtail
      · rw [checkLagrange, if_pos hqne]
      · by_cases hhead : hexEncode (bytesG1 p) ≠ s
        · rw [checkLagrange, if_pos hhead]
        · rw [checkLagrange, if_neg hhead]
          exact ih srest ⟨q, hqtail, hqne⟩

theorem decodeG2List_all {G2 : Type} (setBytesG2 : List ℕ → Option G2) :
    ∀ l : List (List Char),
      (∀ s ∈ l, ∃ bs, hexDecode s = some bs ∧ (setBytesG2 bs).isSome) →
      decodeG2List setBytesG2 l = .ok () := by
  intro l
  induction l with
  | nil => intro _; rfl
  | cons s rest ih =>
    intro h
    obtain ⟨bs, hbs, hsome⟩ := h s (List.mem_cons_self s rest)
    obtain ⟨p, hp⟩ := Option.isSome_iff_exists.mp hsome
    rw [decodeG2List]
    simp only [hbs, hp]
    exact ih fun x hx => h x (List.mem_cons_of_mem s hx)

/-- C3: `CheckTrustedSetupWellFormed` fails with the length-mismatch error as
soon as the monomial and Lagrange G1 lists have different lengths — before
any decoding or cryptographic work, which is why the conclusion holds for
every choice of the abstract decode/encode/IFFT collaborators; with equal
lengths and all monomial points decoding (with subgroup checks), it fails
with the unexpected-lagrange-setup error whenever some re-encoded point of
the computed inverse FFT differs from the supplied hex entry, and succeeds
when every re-encoded computed point equals its supplied entry and every G2
entry decodes. -/
theorem claim_C3 {G1 G2 : Type} (setBytesG1 : List ℕ → Option G1) (bytesG1 : G1 → List ℕ)
    (ifftG1 : List G1 → List G1) (setBytesG2 : List ℕ → Option G2)
    (ts : JSONTrustedSetup) :
    (ts.SetupG1.length ≠ ts.SetupG1Lagrange.length →
      CheckTrustedSetupWellFormed setBytesG1 bytesG1 ifftG1 setBytesG2 ts =
        .error .lagrangeMonomialLengthMismatch)
    ∧ ∀ pts : List G1, ts.SetupG1.length = ts.SetupG1Lagrange.length →
      decodeG1List setBytesG1 ts.SetupG1 = .ok pts →
      (ifftG1 pts).length = pts.length →
      ((∃ p ∈ (ifftG1 pts).zip ts.SetupG1Lagrange, hexEncode (bytesG1 p.1) ≠ p.2) →
        CheckTrustedSetupWellFormed setBytesG1 bytesG1 ifftG1 setBytesG2 ts =
          .error .unexpectedLagrangeSetup)
      ∧ ((∀ p ∈ (ifftG1 pts).zip ts.SetupG1Lagrange, hexEncode (bytesG1 p.1) = p.2) →
        (∀ s ∈ ts.SetupG2, ∃ bs, hexDecode s = some bs ∧ (setBytesG2 bs).isSome) →
        CheckTrustedSetupWellFormed setBytesG1 bytesG1 ifftG1 setBytesG2 ts = .ok ()) := by
  constructor
  · intro hne
    rw [CheckTrustedSetupWellFormed, if_pos hne]
  · intro pts hlen hdec hifft
    have hcond : ¬ts.SetupG1.length ≠ ts.SetupG1Lagrange.length := not_not_intro hlen
    have hlen2 : (ifftG1 pts).length = ts.SetupG1Lagrange.length := by
      rw [hifft, decodeG1List_length setBytesG1 ts.SetupG1 pts hdec, hlen]
    constructor
    · intro hex
      rw [CheckTrustedSetupWellFormed, if_neg hcond]
      simp only [hdec]
      simp only [checkLagrange_mismatch bytesG1 (ifftG1 pts) ts.SetupG1Lagrange hex]
    · intro hall hg2
      rw [CheckTrustedSetupWellFormed, if_neg hcond]
      simp only [hdec]
      simp only [checkLagrange_all bytesG1 (ifftG1 pts) ts.SetupG1Lagrange hall hlen2]
      exact decodeG2List_all setBytesG2 ts.SetupG2 hg2

/-- Witness for C3: with one-byte abstract points, identity IFFT and total
decoders, a consistent one-entry setup passes the check. -/
theorem claim_C3_witness :
    CheckTrustedSetupWellFormed (fun bs : List ℕ => some bs) (fun p : List ℕ => p)
      (fun pts : List (List ℕ) => pts) (fun bs : List ℕ => some bs)
      ⟨[['0', '0']], [['0', '0']], [['0', '0']]⟩ = .ok () := by
  have h := (claim_C3 (fun bs : List ℕ => some bs) (fun p : List ℕ => p)
    (fun pts : List (List ℕ) => pts) (fun bs : List ℕ => some bs)
    ⟨[['0', '0']], [['0', '0']], [['0', '0']]⟩).2 [[0]] rfl (by decide) rfl
  exact h.2 (by decide) fun s hs => by
    simp only [List.mem_singleton] at hs
    subst hs
    exact ⟨[0], rfl, rfl⟩

/-! ## Claim C5: the single Lagrange evaluator -/

theorem findRootIndexAux_eq_some (z : Fr) :
    ∀ (l : List Fr) (k i : ℕ), i < l.length → l.getD i 0 = z →
      (∀ j, j < i → l.getD j 0 ≠ z) → findRootIndexAux z l k = some (k + i) := by
  intro l
  induction l with
  | nil => intro k i hi _ _; simp at hi
  | cons root rest ih =>
    intro k i hi hz hfirst
    rw [findRootIndexAux]
    by_cases hr : root = z
    · have hi0 : i = 0 := by
        by_contra h0
        exact hfirst 0 (Nat.pos_of_ne_zero h0) hr
      subst hi0
      rw [if_pos hr]
      rfl
    · rw [if_neg hr]
      cases i with
      | zero => exact absurd hz hr
      | succ i' =>
        have hrec := ih (k + 1) i' (by simpa using hi) (by simpa using hz)
          fun j hj => by
            have := hfirst (j + 1) (by omega)
            simpa using this
        rw [hrec]
        congr 1
        omega

theorem findRootIndexAux_eq_none (z : Fr) :
    ∀ (l : List Fr) (k : ℕ), (∀ j, j < l.length → l.getD j 0 ≠ z) →
      findRootIndexAux z l k = none := by
  intro l
  induction l with
  | nil => intro k _; rfl
  | cons root rest ih =>
    intro k h
    rw [findRootIndexAux, if_neg (show ¬root = z from h 0 (by simp))]
    exact ih (k + 1) fun j hj => by
      have := h (j + 1) (by simpa using hj)
      simpa using this

theorem evalLagrange_out_of_domain (d : Domain) (poly : Polynomial) (z : Fr)
    (hlen : poly.length = d.Cardinality) (hfind : findRootIndex d z = none) :
    EvaluateLagrangePolynomial d poly z =
      .ok ((frExp z d.Cardinality - 1) * d.CardinalityInv *
        (List.range d.Cardinality).foldl
          (fun acc i => acc + poly.getD i 0 * d.Roots.getD i 0 *
            (batchInvert ((List.range d.Cardinality).map fun j =>
              z - d.Roots.getD j 0)).getD i 0) 0) := by
  rw [EvaluateLagrangePolynomial, evaluateLagrangePolynomial, if_neg (not_not_intro hlen.symm)]
  simp only [hfind]
  rfl

/-- C5: `EvaluateLagrangePolynomial` fails with the size-mismatch error when
the polynomial length differs from the domain cardinality; when the
evaluation point equals the domain root at index `i` (first occurrence), it
returns `poly[i]` directly; otherwise it returns the barycentric value
`(Σ poly[i] * root[i] / (z - root[i])) * (z^Cardinality - 1) *
CardinalityInv` (division by `z - root[i]` is stated as multiplication by the
field inverse).  The hypotheses are the Domain invariants (the roots list
has length `Cardinality`, which is at most `2 ^ 32`). -/
theorem claim_C5 (d : Domain) (hroots : d.Roots.length = d.Cardinality)
    (hcard : d.Cardinality ≤ 2 ^ 32) (poly : Polynomial) (z : Fr) :
    (poly.length ≠ d.Cardinality →
      EvaluateLagrangePolynomial d poly z = .error .polyDomainSizeMismatch)
    ∧ (∀ i, i < d.Cardinality → d.Roots.getD i 0 = z →
      (∀ j, j < i → d.Roots.getD j 0 ≠ z) → poly.length = d.Cardinality →
      EvaluateLagrangePolynomial d poly z = .ok (poly.getD i 0))
    ∧ (poly.length = d.Cardinality → (∀ i, i < d.Cardinality → d.Roots.getD i 0 ≠ z) →
      EvaluateLagrangePolynomial d poly z =
        .ok ((∑ i ∈ Finset.range d.Cardinality,
            poly.getD i 0 * d.Roots.getD i 0 * (z - d.Roots.getD i 0)⁻¹) *
          (z ^ d.Cardinality - 1) * d.CardinalityInv)) := by
  have htake : d.Roots.take d.Cardinality = d.Roots := by
    rw [← hroots]
    exact List.take_length d.Roots
  refine ⟨?_, ?_, ?_⟩
  · intro hlen
    rw [EvaluateLagrangePolynomial, evaluateLagrangePolynomial,
      if_pos fun h => hlen h.symm]
    rfl
  · intro i hi hzi hfirst hlen
    have hfind : findRootIndex d z = some i := by
      rw [findRootIndex, htake]
      have := findRootIndexAux_eq_some z d.Roots 0 i (by omega) hzi hfirst
      simpa using this
    rw [EvaluateLagrangePolynomial, evaluateLagrangePolynomial,
      if_neg (not_not_intro hlen.symm)]
    simp only [hfind]
    rfl
  · intro hlen hnone
    have hfind : findRootIndex d z = none := by
      rw [findRootIndex, htake]
      exact findRootIndexAux_eq_none z d.Roots 0 fun j hj => hnone j (by omega)
    rw [evalLagrange_out_of_domain d poly z hlen hfind]
    have hexp : frExp z d.Cardinality = z ^ d.Cardinality :=
      frExp_eq_pow z d.Cardinality
        (lt_of_le_of_lt hcard (by decide : (2 : ℕ) ^ 32 < 2 ^ 256))
    have hfold :
        (List.range d.Cardinality).foldl
          (fun acc i => acc + poly.getD i 0 * d.Roots.getD i 0 *
            (batchInvert ((List.range d.Cardinality).map fun j =>
              z - d.Roots.getD j 0)).getD i 0) 0 =
        ∑ i ∈ Finset.range d.Cardinality,
          poly.getD i 0 * d.Roots.getD i 0 * (z - d.Roots.getD i 0)⁻¹ := by
      rw [foldl_add_sum, zero_add, sum_list_range_eq]
      refine Finset.sum_congr rfl fun i hi => ?_
      have hiC : i < d.Cardinality := Finset.mem_range.mp hi
      rw [batchInvert, List.map_map, getD_range_map _ hiC]
      show poly.getD i 0 * d.Roots.getD i 0 * frInv (z - d.Roots.getD i 0) = _
      rw [frInv_eq_inv]
    rw [hfold, hexp, mul_comm ((z ^ d.Cardinality - 1) * d.CardinalityInv), mul_assoc]

/-- Witness for C5: evaluating `[5, 7]` over the cardinality-2 domain at the
out-of-domain point `2` yields exactly the barycentric closed form. -/
theorem claim_C5_witness :
    EvaluateLagrangePolynomial domain2 [5, 7] 2 =
      .ok ((∑ i ∈ Finset.range domain2.Cardinality,
          ([5, 7] : Polynomial).getD i 0 * domain2.Roots.getD i 0 *
            ((2 : Fr) - domain2.Roots.getD i 0)⁻¹) *
        ((2 : Fr) ^ domain2.Cardinality - 1) * domain2.CardinalityInv) :=
  (claim_C5 domain2 (by decide) (by decide) [5, 7] 2).2.2 (by decide) (by decide)

/-! ## Claim C6: domain construction -/

theorem isPowerOfTwo_iff (n : ℕ) : isPowerOfTwo n = true ↔ ∃ k, k ≤ 64 ∧ n = 2 ^ k := by
  rw [isPowerOfTwo, List.any_eq_true]
  constructor
  · rintro ⟨k, hk, hkeq⟩
    exact ⟨k, by simpa [Nat.lt_succ_iff] using List.mem_range.mp hk, by simpa using hkeq⟩
  · rintro ⟨k, hk, rfl⟩
    exact ⟨k, List.mem_range.mpr (by omega), by simp⟩

theorem bitLenAux_zero : ∀ fuel, bitLenAux fuel 0 = 0
  | 0 => rfl
  | fuel + 1 => by rw [bitLenAux, if_pos rfl]

theorem bitLenAux_le : ∀ fuel n, bitLenAux fuel n ≤ fuel := by
  intro fuel
  induction fuel with
  | zero => intro n; simp [bitLenAux]
  | succ fuel ih =>
    intro n
    rw [bitLenAux]
    split
    · omega
    · have := ih (n / 2)
      omega

theorem bitLenAux_spec : ∀ (fuel n : ℕ), n < 2 ^ fuel → 0 < n →
    0 < bitLenAux fuel n ∧ 2 ^ (bitLenAux fuel n - 1) ≤ n ∧ n < 2 ^ bitLenAux fuel n := by
  intro fuel
  induction fuel with
  | zero =>
    intro n hn h0
    rw [pow_zero] at hn
    omega
  | succ fuel ih =>
    intro n hn h0
    rw [bitLenAux, if_neg (by omega : ¬n = 0)]
    by_cases h1 : n / 2 = 0
    · have hn1 : n = 1 := by omega
      rw [h1, bitLenAux_zero]
      subst hn1
      norm_num
    · have hdiv2 : n / 2 < 2 ^ fuel := by
        rw [pow_succ] at hn
        omega
      obtain ⟨hb0, hlow, hhigh⟩ := ih (n / 2) hdiv2 (by omega)
      refine ⟨by omega, ?_, ?_⟩
      · have h2 : 2 ^ bitLenAux fuel (n / 2) = 2 * 2 ^ (bitLenAux fuel (n / 2) - 1) := by
          rw [← pow_succ']
          congr 1
          omega
        have h3 : bitLenAux fuel (n / 2) + 1 - 1 = bitLenAux fuel (n / 2) := by omega
        rw [h3, h2]
        omega
      · rw [pow_succ]
        omega

theorem tzAux_pow : ∀ (fuel k : ℕ), k ≤ fuel → tzAux fuel (2 ^ k) = k := by
  intro fuel
  induction fuel with
  | zero =>
    intro k hk
    interval_cases k
    rfl
  | succ fuel ih =>
    intro k hk
    cases k with
    | zero =>
      rw [pow_zero, tzAux]
      norm_num
    | succ j =>
      rw [tzAux, pow_succ, if_neg (by omega : ¬2 ^ j * 2 % 2 = 1),
        Nat.mul_div_cancel _ (by norm_num : (0 : ℕ) < 2), ih j (by omega)]
      omega

theorem trailingZeros64_pow {k : ℕ} (hk : k ≤ 64) : trailingZeros64 (2 ^ k) = k := by
  rw [trailingZeros64, if_neg (Nat.pow_pos (by norm_num)).ne']
  exact tzAux_pow 64 k hk

theorem powList_length (g : Fr) : ∀ (k : ℕ) (c : Fr), (powList g k c).length = k := by
  intro k
  induction k with
  | zero => intro c; rfl
  | succ k ih =>
    intro c
    rw [powList]
    simp [ih]

theorem powList_getD (g : Fr) : ∀ (k : ℕ) (c : Fr) (i : ℕ), i < k →
    (powList g k c).getD i 0 = c * g ^ i := by
  intro k
  induction k with
  | zero =>
    intro c i hi
    omega
  | succ k ih =>
    intro c i hi
    cases i with
    | zero =>
      rw [powList]
      simp
    | succ j =>
      rw [powList]
      show (powList g k (c * g)).getD j 0 = c * g ^ (j + 1)
      rw [ih (c * g) j (by omega), pow_succ]
      ring

theorem nextPow2Spec_pow (k : ℕ) : nextPow2Spec (2 ^ k) = 2 ^ k := by
  rw [nextPow2Spec, if_neg (Nat.pow_pos (by norm_num)).ne', Nat.clog_pow 2 k (by norm_num)]

theorem le_nextPow2Spec (m : ℕ) : m ≤ nextPow2Spec m := by
  rw [nextPow2Spec]
  by_cases h : m = 0
  · simp [h]
  · rw [if_neg h]
    exact Nat.le_pow_clog (by norm_num) m

theorem nextPow2Spec_min (m j : ℕ) (h : m ≤ 2 ^ j) : nextPow2Spec m ≤ 2 ^ j := by
  rw [nextPow2Spec]
  by_cases h0 : m = 0
  · rw [if_pos h0]
    exact Nat.one_le_two_pow
  · rw [if_neg h0]
    exact Nat.pow_le_pow_right (by norm_num) ((Nat.le_pow_iff_clog_le (by norm_num)).mp h)

theorem nextPow2Spec_exists_pow (m : ℕ) : ∃ k, nextPow2Spec m = 2 ^ k := by
  by_cases h : m = 0
  · exact ⟨0, by rw [nextPow2Spec, if_pos h, pow_zero]⟩
  · exact ⟨Nat.clog 2 m, by rw [nextPow2Spec, if_neg h]⟩

theorem pow_bitLen_eq_spec (m : ℕ) (hm : m < 2 ^ 64) (hpw : ¬isPowerOfTwo m = true) :
    2 ^ bitLen64 m = nextPow2Spec m := by
  by_cases h0 : m = 0
  · subst h0
    rw [nextPow2Spec, if_pos rfl]
    rw [show bitLen64 0 = 0 from bitLenAux_zero 64, pow_zero]
  · have hpos : 0 < m := Nat.pos_of_ne_zero h0
    obtain ⟨hb0, hlow, hhigh⟩ := bitLenAux_spec 64 m hm hpos
    have hb64 : bitLen64 m ≤ 64 := bitLenAux_le 64 m
    have hnp : ∀ k, k ≤ 64 → m ≠ 2 ^ k := by
      intro k hk hkeq
      exact hpw ((isPowerOfTwo_iff m).mpr ⟨k, hk, hkeq⟩)
    rw [nextPow2Spec, if_neg h0]
    congr 1
    have hble : Nat.clog 2 m ≤ bitLen64 m :=
      (Nat.le_pow_iff_clog_le (by norm_num)).mp (le_of_lt hhigh)
    have hbge : bitLen64 m ≤ Nat.clog 2 m := by
      by_contra hc
      push_neg at hc
      have h2 : m ≤ 2 ^ (bitLen64 m - 1) :=
        (Nat.le_pow_iff_clog_le (by norm_num)).mpr (by omega)
      exact hnp (bitLen64 m - 1) (by omega) (le_antisymm h2 hlow)
    omega

theorem rootOfUnity_ne_zero : rootOfUnity ≠ 0 := by decide

theorem nextPowerOfTwo_of_spec_le (m : ℕ) (hm : m < 2 ^ 64)
    (h32 : nextPow2Spec m ≤ 2 ^ 32) : nextPowerOfTwo m = some (nextPow2Spec m) := by
  unfold nextPowerOfTwo
  by_cases hpw : isPowerOfTwo m = true
  · rw [if_pos hpw]
    obtain ⟨k, hk, rfl⟩ := (isPowerOfTwo_iff m).mp hpw
    rw [nextPow2Spec_pow]
  · rw [if_neg hpw]
    have hm32 : m ≤ 2 ^ 32 := le_trans (le_nextPow2Spec m) h32
    have h1 : (2 : ℕ) ^ 32 ≤ 2 ^ 63 := by norm_num
    rw [if_neg (by omega : ¬2 ^ 63 < m), pow_bitLen_eq_spec m hm hpw]

theorem nextPowerOfTwo_cases (m : ℕ) (hm : m < 2 ^ 64) :
    nextPowerOfTwo m = none ∨ nextPowerOfTwo m = some (nextPow2Spec m) := by
  unfold nextPowerOfTwo
  by_cases hpw : isPowerOfTwo m = true
  · right
    rw [if_pos hpw]
    obtain ⟨k, hk, rfl⟩ := (isPowerOfTwo_iff m).mp hpw
    rw [nextPow2Spec_pow]
  · rw [if_neg hpw]
    by_cases h63 : 2 ^ 63 < m
    · left
      rw [if_pos h63]
    · right
      rw [if_neg h63, pow_bitLen_eq_spec m hm hpw]

/-- C6: `NewDomain` rounds the size up to `nextPow2Spec m`, the least power
of two at least `m` (and at least 1); it fails whenever that rounded value
exceeds `2 ^ 32` (either because `NextPowerOfTwo` itself overflows or because
the 2-adicity guard fires), and for every rounded value at most `2 ^ 32`
(including sizes 0 and 1) it builds a domain of that cardinality whose roots
list has exactly that length, starts at `1`, multiplies by the generator at
each step, and is paired with the multiplicative inverse of every root. -/
theorem claim_C6 (m : ℕ) (hm : m < 2 ^ 64) :
    (∃ k, nextPow2Spec m = 2 ^ k ∧ m ≤ nextPow2Spec m ∧
      ∀ j, m ≤ 2 ^ j → nextPow2Spec m ≤ 2 ^ j)
    ∧ (2 ^ 32 < nextPow2Spec m → NewDomain m = none)
    ∧ (nextPow2Spec m ≤ 2 ^ 32 → ∃ d, NewDomain m = some d ∧
      d.Cardinality = nextPow2Spec m ∧
      d.Roots.length = nextPow2Spec m ∧
      d.Roots.getD 0 0 = 1 ∧
      (∀ i, 0 < i → i < nextPow2Spec m →
        d.Roots.getD i 0 = d.Roots.getD (i - 1) 0 * d.Generator) ∧
      d.PreComputedInverses.length = nextPow2Spec m ∧
      (∀ i, i < nextPow2Spec m →
        d.Roots.getD i 0 * d.PreComputedInverses.getD i 0 = 1)) := by
  haveI : Fact (Nat.Prime r) := ⟨r_prime⟩
  obtain ⟨k, hkspec⟩ := nextPow2Spec_exists_pow m
  have hk64 : k ≤ 64 := by
    have h1 : nextPow2Spec m ≤ 2 ^ 64 := nextPow2Spec_min m 64 (le_of_lt hm)
    rw [hkspec] at h1
    exact (Nat.pow_le_pow_iff_right (by norm_num)).mp h1
  refine ⟨⟨k, hkspec, le_nextPow2Spec m, fun j hj => nextPow2Spec_min m j hj⟩, ?_, ?_⟩
  · intro h32
    rcases nextPowerOfTwo_cases m hm with hnp | hnp
    · unfold NewDomain
      rw [hnp]
    · unfold NewDomain
      rw [hnp]
      have hk32 : 32 < k := by
        rw [hkspec] at h32
        by_contra hc
        push_neg at hc
        exact absurd (Nat.pow_le_pow_right (by norm_num) hc : (2 : ℕ) ^ k ≤ 2 ^ 32)
          (by omega)
      simp only [hkspec, trailingZeros64_pow hk64]
      rw [if_pos (by rw [maxOrderRoot]; omega : k > maxOrderRoot)]
  · intro h32
    have hnp := nextPowerOfTwo_of_spec_le m hm h32
    have hk32 : k ≤ 32 := by
      rw [hkspec] at h32
      exact (Nat.pow_le_pow_iff_right (by norm_num)).mp h32
    unfold NewDomain
    rw [hnp]
    simp only [hkspec, trailingZeros64_pow hk64]
    rw [if_neg (by rw [maxOrderRoot]; omega : ¬k > maxOrderRoot)]
    have hgen : frExp rootOfUnity (2 ^ (maxOrderRoot - k)) ≠ 0 := by
      have hb : 2 ^ (maxOrderRoot - k) < 2 ^ 256 := by
        have h1 : maxOrderRoot - k ≤ 32 := by rw [maxOrderRoot]; omega
        calc (2 : ℕ) ^ (maxOrderRoot - k) ≤ 2 ^ 32 := Nat.pow_le_pow_right (by norm_num) h1
        _ < 2 ^ 256 := by norm_num
      rw [frExp_eq_pow rootOfUnity _ hb]
      exact pow_ne_zero _ rootOfUnity_ne_zero
    have hxpos : 0 < 2 ^ k := Nat.pow_pos (by norm_num)
    refine ⟨_, rfl, rfl, ?_, ?_, ?_, ?_, ?_⟩
    · rw [powList_length]
    · rw [powList_getD _ _ _ _ hxpos, pow_zero, mul_one]
    · intro i h0 hi
      rw [powList_getD _ _ _ _ hi, powList_getD _ _ _ _ (by omega), one_mul, one_mul]
      have hsucc : i - 1 + 1 = i := by omega
      rw [← pow_succ, hsucc]
    · rw [List.length_map, powList_length]
    · intro i hi
      have hlen : i < (powList (frExp rootOfUnity
          (2 ^ (maxOrderRoot - k))) (2 ^ k) 1).length := by
        rw [powList_length]
        exact hi
      rw [getD_map_of_lt frInv hlen, powList_getD _ _ _ _ hi, one_mul, frInv_eq_inv]
      exact mul_inv_cancel₀ (pow_ne_zero i hgen)

/-- Witness for C6: `NewDomain 4` builds a domain of cardinality
`nextPow2Spec 4` whose first root is one. -/
theorem claim_C6_witness :
    ∃ d, NewDomain 4 = some d ∧ d.Cardinality = nextPow2Spec 4 ∧ d.Roots.getD 0 0 = 1 := by
  have h4 : nextPow2Spec 4 ≤ 2 ^ 32 := by
    rw [show (4 : ℕ) = 2 ^ 2 from rfl, nextPow2Spec_pow]
    norm_num
  obtain ⟨d, h1, h2, _, h3, _⟩ := (claim_C6 4 (by norm_num)).2.2 h4
  exact ⟨d, h1, h2, h3⟩

/-! ## Claim C10: bit reversal is an involution -/

theorem getD_set_self {l : List Fr} {i : ℕ} {v : Fr} (h : i < l.length) :
    (l.set i v).getD i 0 = v := by
  simp [List.getD_eq_getElem?_getD, List.getElem?_set_self, h]

theorem getD_set_ne {l : List Fr} {i j : ℕ} {v : Fr} (h : i ≠ j) :
    (l.set i v).getD j 0 = l.getD j 0 := by
  simp [List.getD_eq_getElem?_getD, List.getElem?_set_ne h]

theorem swapL_length (l : List Fr) (i j : ℕ) : (swapL l i j).length = l.length := by
  simp [swapL]

theorem getD_swapL (l : List Fr) {i j : ℕ} (hi : i < l.length) (hj : j < l.length) (m : ℕ) :
    (swapL l i j).getD m 0 =
      if m = j then l.getD i 0 else if m = i then l.getD j 0 else l.getD m 0 := by
  rw [swapL]
  by_cases hmj : m = j
  · subst hmj
    rw [if_pos rfl, getD_set_self (by simpa using hj)]
  · rw [if_neg hmj, getD_set_ne (Ne.symm hmj)]
    by_cases hmi : m = i
    · subst hmi
      rw [if_pos rfl, getD_set_self hi]
    · rw [if_neg hmi, getD_set_ne (Ne.symm hmi)]

theorem revAux_zero : ∀ fuel, revAux fuel 0 0 = 0 := by
  intro fuel
  induction fuel with
  | zero => rfl
  | succ fuel ih =>
    rw [revAux]
    simpa using ih

theorem revAux_acc : ∀ (fuel n acc : ℕ), revAux fuel n acc = acc * 2 ^ fuel + revAux fuel n 0 := by
  intro fuel
  induction fuel with
  | zero => intro n acc; simp [revAux]
  | succ fuel ih =>
    intro n acc
    rw [revAux, ih (n / 2) (2 * acc + n % 2)]
    conv_rhs => rw [revAux, ih (n / 2) (2 * 0 + n % 2)]
    rw [pow_succ]
    ring

theorem revAux_lt : ∀ (fuel n : ℕ), revAux fuel n 0 < 2 ^ fuel := by
  intro fuel
  induction fuel with
  | zero => intro n; simp [revAux]
  | succ fuel ih =>
    intro n
    rw [revAux, revAux_acc fuel (n / 2) (2 * 0 + n % 2), pow_succ]
    have h1 := ih (n / 2)
    rcases Nat.mod_two_eq_zero_or_one n with h | h <;> rw [h] <;> omega

theorem revAux_shift : ∀ (k m i : ℕ), i < 2 ^ k →
    revAux (k + m) i 0 = revAux k i 0 * 2 ^ m := by
  intro k
  induction k with
  | zero =>
    intro m i hi
    rw [pow_zero] at hi
    interval_cases i
    rw [revAux_zero, revAux_zero]
    simp
  | succ k ih =>
    intro m i hi
    have hstep : k + 1 + m = (k + m) + 1 := by omega
    rw [hstep, revAux, revAux_acc (k + m) (i / 2) (2 * 0 + i % 2),
      ih m (i / 2) (by rw [pow_succ] at hi; omega)]
    conv_rhs => rw [revAux, revAux_acc k (i / 2) (2 * 0 + i % 2)]
    rw [pow_add]
    ring

theorem revAux_compl : ∀ (k j b : ℕ), j < 2 ^ k → b < 2 →
    revAux (k + 1) (b * 2 ^ k + j) 0 = 2 * revAux k j 0 + b := by
  intro k
  induction k with
  | zero =>
    intro j b hj hb
    rw [pow_zero] at hj
    interval_cases j
    show 2 * 0 + (b * 2 ^ 0 + 0) % 2 = 2 * revAux 0 0 0 + b
    rw [revAux_zero]
    rw [pow_zero]
    omega
  | succ k ih =>
    intro j b hj hb
    have he : b * 2 ^ (k + 1) = 2 * (b * 2 ^ k) := by ring
    have hmod : (b * 2 ^ (k + 1) + j) % 2 = j % 2 := by omega
    have hdiv : (b * 2 ^ (k + 1) + j) / 2 = b * 2 ^ k + j / 2 := by omega
    rw [revAux, hdiv, hmod,
      revAux_acc (k + 1) (b * 2 ^ k + j / 2) (2 * 0 + j % 2),
      ih (j / 2) b (by rw [pow_succ] at hj; omega) hb]
    conv_rhs => rw [revAux, revAux_acc k (j / 2) (2 * 0 + j % 2)]
    rw [pow_succ]
    ring

theorem revAux_invol : ∀ (k i : ℕ), i < 2 ^ k → revAux k (revAux k i 0) 0 = i := by
  intro k
  induction k with
  | zero =>
    intro i hi
    rw [pow_zero] at hi
    interval_cases i
    rw [revAux_zero, revAux_zero]
  | succ k ih =>
    intro i hi
    have hi2 : i / 2 < 2 ^ k := by rw [pow_succ] at hi; omega
    have h1 : revAux (k + 1) i 0 = i % 2 * 2 ^ k + revAux k (i / 2) 0 := by
      rw [revAux, revAux_acc k (i / 2) (2 * 0 + i % 2)]
      ring
    rw [h1, revAux_compl k (revAux k (i / 2) 0) (i % 2) (revAux_lt k (i / 2))
      (Nat.mod_lt _ (by norm_num)), ih (i / 2) hi2]
    omega

theorem bitRevIndex_eq {k n i : ℕ} (hk : k ≤ 64) (hn : n = 2 ^ k) (hi : i < 2 ^ k) :
    bitRevIndex n i = revAux k i 0 := by
  rw [bitRevIndex, hn, trailingZeros64_pow hk, reverse64]
  have hshift : revAux 64 i 0 = revAux k i 0 * 2 ^ (64 - k) := by
    have h := revAux_shift k (64 - k) i hi
    rw [show k + (64 - k) = 64 from by omega] at h
    exact h
  rw [hshift, Nat.mul_div_cancel _ (Nat.pow_pos (by norm_num))]

theorem bitRevStep_def (n : ℕ) (acc : List Fr) (i : ℕ) :
    bitRevStep n acc i =
      if i < bitRevIndex n i then swapL acc i (bitRevIndex n i) else acc := rfl

theorem bitReverse_loop_spec {k : ℕ} (hk : k ≤ 64) (l : List Fr) (hl : l.length = 2 ^ k) :
    ∀ t, t ≤ 2 ^ k →
      ((List.range t).foldl (bitRevStep l.length) l).length = 2 ^ k
      ∧ ∀ j, j < 2 ^ k →
        ((List.range t).foldl (bitRevStep l.length) l).getD j 0 =
          if min j (revAux k j 0) < t then l.getD (revAux k j 0) 0 else l.getD j 0 := by
  intro t
  induction t with
  | zero =>
    intro _
    refine ⟨by simpa using hl, ?_⟩
    intro j hj
    rw [if_neg (by omega)]
    rfl
  | succ t ih =>
    intro ht
    obtain ⟨ihlen, ihval⟩ := ih (by omega)
    rw [List.range_succ, List.foldl_append, List.foldl_cons, List.foldl_nil]
    have htk : t < 2 ^ k := by omega
    have hirev : bitRevIndex l.length t = revAux k t 0 := bitRevIndex_eq hk hl htk
    have hrevt_lt : revAux k t 0 < 2 ^ k := revAux_lt k t
    have hrevirev : revAux k (revAux k t 0) 0 = t := revAux_invol k t htk
    rw [bitRevStep_def, hirev]
    by_cases hswap : t < revAux k t 0
    · rw [if_pos hswap]
      have hAt : ((List.range t).foldl (bitRevStep l.length) l).getD t 0 = l.getD t 0 := by
        rw [ihval t htk, if_neg (by omega)]
      have hAirev : ((List.range t).foldl (bitRevStep l.length) l).getD (revAux k t 0) 0 =
          l.getD (revAux k t 0) 0 := by
        rw [ihval (revAux k t 0) hrevt_lt, hrevirev, if_neg (by omega)]
      refine ⟨by rw [swapL_length, ihlen], ?_⟩
      intro j hj
      rw [getD_swapL _ (by omega) (by omega) j, hAt, hAirev]
      by_cases hjirev : j = revAux k t 0
      · subst hjirev
        rw [if_pos rfl, if_pos (by rw [hrevirev]; omega), hrevirev]
      · rw [if_neg hjirev]
        by_cases hjt : j = t
        · subst hjt
          rw [if_pos rfl, if_pos (by omega)]
        · rw [if_neg hjt, ihval j hj]
          have hrevj_invol : revAux k (revAux k j 0) 0 = j := revAux_invol k j hj
          have hmin_ne : min j (revAux k j 0) ≠ t := by
            intro hmin
            rcases Nat.le_total j (revAux k j 0) with hle | hle
            · rw [min_eq_left hle] at hmin
              exact hjt hmin
            · rw [min_eq_right hle] at hmin
              exact hjirev (by rw [← hrevj_invol, hmin])
          by_cases hcond : min j (revAux k j 0) < t
          · rw [if_pos hcond, if_pos (by omega)]
          · rw [if_neg hcond, if_neg (by omega)]
    · rw [if_neg hswap]
      refine ⟨ihlen, ?_⟩
      intro j hj
      rw [ihval j hj]
      have hrevj_invol : revAux k (revAux k j 0) 0 = j := revAux_invol k j hj
      by_cases hcond : min j (revAux k j 0) < t
      · rw [if_pos hcond, if_pos (by omega)]
      · by_cases heq : min j (revAux k j 0) = t
        · have hrevjj : revAux k j 0 = j := by
            rcases Nat.le_total j (revAux k j 0) with hle | hle
            · rw [min_eq_left hle] at heq
              subst heq
              omega
            · rw [min_eq_right hle] at heq
              have hj_irev : j = revAux k j 0 := by
                have h1 : j ≤ revAux k j 0 := by
                  have h2 : j = revAux k (revAux k j 0) 0 := hrevj_invol.symm
                  rw [h2, heq]
                  omega
                omega
              omega
          have hval : l.getD (revAux k j 0) 0 = l.getD j 0 := by rw [hrevjj]
          rw [if_neg hcond, if_pos (by omega)]
          exact hval.symm
        · rw [if_neg hcond, if_neg (by omega)]

theorem bitReverse_spec {k : ℕ} (hk : k ≤ 64) (l : List Fr) (hl : l.length = 2 ^ k) :
    ∃ lr, bitReverse l = some lr ∧ lr.length = 2 ^ k ∧
      ∀ j, j < 2 ^ k → lr.getD j 0 = l.getD (revAux k j 0) 0 := by
  have hpow : isPowerOfTwo l.length = true := (isPowerOfTwo_iff _).mpr ⟨k, hk, hl⟩
  have hrange : List.range l.length = List.range (2 ^ k) := by rw [hl]
  rw [bitReverse, if_pos hpow, hrange]
  obtain ⟨hlen, hval⟩ := bitReverse_loop_spec hk l hl (2 ^ k) (le_refl _)
  refine ⟨_, rfl, hlen, ?_⟩
  intro j hj
  rw [hval j hj, if_pos (by have := revAux_lt k j; omega)]

theorem bitReverse_bitReverse {k : ℕ} (hk : k ≤ 64) (l : List Fr) (hl : l.length = 2 ^ k) :
    (bitReverse l).bind bitReverse = some l := by
  obtain ⟨lr, h1, hlen1, hval1⟩ := bitReverse_spec hk l hl
  obtain ⟨lrr, h2, hlen2, hval2⟩ := bitReverse_spec hk lr hlen1
  rw [h1]
  show bitReverse lr = some l
  rw [h2]
  congr 1
  apply List.ext_getElem (by omega)
  intro n h1n h2n
  have hn : n < 2 ^ k := by omega
  have hv := hval2 n hn
  rw [hval1 (revAux k n 0) (revAux_lt k n), revAux_invol k n hn] at hv
  rw [List.getD_eq_getElem?_getD, List.getElem?_eq_getElem h1n,
    List.getD_eq_getElem?_getD, List.getElem?_eq_getElem h2n] at hv
  simpa using hv

/-- C10: for every domain whose roots and precomputed-inverses lists have
power-of-two length (Go slice lengths are below `2 ^ 64`, hence the exponent
bound), `ReverseRoots` succeeds, applying it twice restores both lists, and a
single application leaves `Cardinality`, `Generator`, `GeneratorInv` and
`CardinalityInv` unchanged. -/
theorem claim_C10 (d : Domain)
    (hr : ∃ k, k ≤ 64 ∧ d.Roots.length = 2 ^ k)
    (hp : ∃ k, k ≤ 64 ∧ d.PreComputedInverses.length = 2 ^ k) :
    ∃ e, ReverseRoots d = some e ∧ ReverseRoots e = some d ∧
      e.Cardinality = d.Cardinality ∧ e.Generator = d.Generator ∧
      e.GeneratorInv = d.GeneratorInv ∧ e.CardinalityInv = d.CardinalityInv := by
  obtain ⟨kr, hkr, hlr⟩ := hr
  obtain ⟨kp, hkp, hlp⟩ := hp
  obtain ⟨roots1, hb1, hlen1, _⟩ := bitReverse_spec hkr d.Roots hlr
  obtain ⟨inv1, hb2, hlen2, _⟩ := bitReverse_spec hkp d.PreComputedInverses hlp
  have hbr : bitReverse roots1 = some d.Roots := by
    have h := bitReverse_bitReverse hkr d.Roots hlr
    rw [hb1] at h
    exact h
  have hbp : bitReverse inv1 = some d.PreComputedInverses := by
    have h := bitReverse_bitReverse hkp d.PreComputedInverses hlp
    rw [hb2] at h
    exact h
  refine ⟨{ d with Roots := roots1, PreComputedInverses := inv1 }, ?_, ?_, rfl, rfl, rfl, rfl⟩
  · rw [ReverseRoots]
    simp only [hb1, hb2]
  · rw [ReverseRoots]
    simp only [hbr, hbp]

/-- Witness for C10: reversing the roots of the concrete cardinality-2 domain
twice restores it. -/
theorem claim_C10_witness : (ReverseRoots domain2).bind ReverseRoots = some domain2 := by
  obtain ⟨e, h1, h2, _⟩ := claim_C10 domain2 ⟨1, by decide, by decide⟩ ⟨1, by decide, by decide⟩
  rw [h1]
  exact h2

end GoKZG
